import Mathlib

/-!
# Verification of the cloudbees-io/checkout core logic

A shallow embedding, in Lean 4, of the decision logic of the `checkout`
action: ref classification and refspec construction
(`internal/checkout/source_provider.go`), SSH URL normalization
(`internal/checkout/urls.go`), the git-credential-helper wire format
(`internal/helper/credential.go`), the credential helper's subsection
selection (`cmd/helper.go`), and the existing-directory reconciler
(`prepareExistingDirectory`).

Go strings are modelled as `List Char`; Go's multiple return values
`(T, error)` are modelled as `Except GoError T`; the git CLI and the
filesystem are modelled as explicit oracle structures holding the results
the code would observe.
-/

set_option maxRecDepth 10000

/-- A Go string, modelled as its character sequence. -/
abbrev Str := List Char

/-- A Go `error` value, modelled by its message. -/
abbrev GoError := Str

/-- Shorthand turning a Lean string literal into the `List Char` model. -/
def lit (s : String) : Str := s.toList

namespace GoStrings

/-- Go `strings.HasPrefix`. -/
def hasPrefix (s pre : Str) : Bool := pre.isPrefixOf s

/-- Go `strings.HasSuffix`. -/
def hasSuffix (s suf : Str) : Bool := suf.isSuffixOf s

/-- Go `strings.TrimPrefix`: removes `pre` from the front of `s` when present. -/
def trimPrefix (s pre : Str) : Str :=
  if hasPrefix s pre then s.drop pre.length else s

/-- Go `strings.TrimSuffix`: removes `suf` from the end of `s` when present. -/
def trimSuffix (s suf : Str) : Str :=
  if hasSuffix s suf then s.take (s.length - suf.length) else s

/-- Go `strings.ToLower` (ASCII range; the refs compared in this code are ASCII). -/
def toLower (s : Str) : Str := s.map Char.toLower

/-- The ASCII whitespace recognized by Go `unicode.IsSpace`. -/
def isSpace (c : Char) : Bool :=
  c = ' ' || c = '\t' || c = '\n' || c = '\x0B' || c = '\x0C' || c = '\r'

/-- Go `strings.TrimSpace` (ASCII whitespace). -/
def trimSpace (s : Str) : Str :=
  ((s.dropWhile isSpace).reverse.dropWhile isSpace).reverse

/-- Go `strings.TrimLeft(s, "/")`. -/
def trimLeftSlash (s : Str) : Str := s.dropWhile (fun c => c = '/')

/-- Go `strings.LastIndex(s, ":")` for a single-character needle:
the index of the last occurrence, or `-1`. -/
def lastIndexChar (ch : Char) (s : Str) : Int :=
  match s.reverse.findIdx? (fun c => c = ch) with
  | none => -1
  | some i => (s.length : Int) - 1 - i

end GoStrings

open GoStrings

/-! ## Provider constants (`internal/auth/util.go`) -/

def GitHubProvider : Str := lit "github"
def GitLabProvider : Str := lit "gitlab"
def BitbucketProvider : Str := lit "bitbucket"
def CustomProvider : Str := lit "custom"
def BitbucketDatacenterProvider : Str := lit "bitbucket_datacenter"

/-! ## Ref/commit resolution (`internal/checkout/source_provider.go`) -/

/-- The git CLI probes consulted by `getCheckoutInfo`, modelled as an oracle
recording what each call would return.  `branchExists remote name` models
`cli.BranchExists(remote, name)` and `tagExists name` models
`cli.TagExists(name)`; both may fail like the real subprocess calls. -/
structure GitCLI where
  branchExists : Bool → Str → Except GoError Bool
  tagExists : Str → Except GoError Bool

/-- `CheckoutInfo` from `source_provider.go`: the resolved local ref and
optional start point. -/
structure CheckoutInfo where
  ref : Str
  startPoint : Str
deriving DecidableEq, Repr

/-- `getCheckoutInfo` from `source_provider.go` (lines 835-875): maps the
requested `{ref, commit}` pair to the local checkout target. -/
def getCheckoutInfo (cli : GitCLI) (ref commit : Str) : Except GoError CheckoutInfo :=
  if ref = [] ∧ commit = [] then
    .error (lit "Ref and commit cannot both be empty")
  else
    let lowerRef := toLower ref
    if ref = [] then
      .ok ⟨commit, []⟩
    else if hasPrefix lowerRef (lit "refs/heads/") then
      let r := ref.drop (lit "refs/heads/").length
      .ok ⟨r, lit "refs/remotes/origin/" ++ r⟩
    else if hasPrefix lowerRef (lit "refs/pull/") then
      let r := ref.drop (lit "refs/pull/").length
      .ok ⟨r, lit "refs/remotes/pull/" ++ r⟩
    else if hasPrefix lowerRef (lit "refs/") then
      .ok ⟨ref, []⟩
    else
      match cli.branchExists true (lit "origin/" ++ ref) with
      | .error e => .error e
      | .ok true => .ok ⟨ref, lit "refs/remotes/origin/" ++ ref⟩
      | .ok false =>
        match cli.tagExists ref with
        | .error e => .error e
        | .ok true => .ok ⟨lit "refs/tags/" ++ ref, []⟩
        | .ok false =>
          .error (lit "a branch or tag with the name could not be found")

/-- A fetch refspec `+src:dst`, as built with `fmt.Sprintf("+%s:%s", a, b)`. -/
def refspec (src dst : Str) : Str := '+' :: src ++ ':' :: dst

/-- `getRefSpec` from `source_provider.go` (lines 937-980): the refspecs to
fetch for the requested `{ref, commit}` pair under the given provider. -/
def getRefSpec (ref commit provider : Str) : List Str :=
  let lowerRef := toLower ref
  if commit ≠ [] then
    if hasPrefix lowerRef (lit "refs/heads/") then
      let branch := ref.drop (lit "refs/heads/").length
      [refspec commit (lit "refs/remotes/origin/" ++ branch)]
    else if hasPrefix lowerRef (lit "refs/pull/") then
      let branch := ref.drop (lit "refs/pull/").length
      [refspec commit (lit "refs/remotes/pull/" ++ branch)]
    else if hasPrefix lowerRef (lit "refs/tags/") then
      [refspec commit ref]
    else if provider = BitbucketProvider then
      [commit, ref]
    else
      [commit]
  else if ¬ hasPrefix lowerRef (lit "refs/") then
    [ '+' :: (lit "refs/heads/" ++ ref ++ ['*']) ++ ':' :: (lit "refs/remotes/origin/" ++ ref ++ ['*']),
      '+' :: (lit "refs/tags/" ++ ref ++ ['*']) ++ ':' :: (lit "refs/tags/" ++ ref ++ ['*'])]
  else if hasPrefix lowerRef (lit "refs/heads/") then
    let branch := ref.drop (lit "refs/heads/").length
    [refspec ref (lit "refs/remotes/origin/" ++ branch)]
  else if hasPrefix lowerRef (lit "refs/pull/") then
    let branch := ref.drop (lit "refs/pull/").length
    [refspec ref (lit "refs/remotes/pull/" ++ branch)]
  else
    [refspec ref ref]

/-! ## Git credential helper wire format (`internal/helper/credential.go`) -/

/-- `GitCredential` from `credential.go`: the input/output record of the git
credential helper API.  `PasswordExpiry *time.Time` is modelled by its Unix
seconds (`Option Int`), which is exactly what `WriteTo` emits and
`ReadCredential` parses. -/
structure GitCredential where
  protocol : Str
  host : Str
  path : Str
  username : Str
  password : Str
  passwordExpiry : Option Int
  oauthRefreshToken : Str
  wwwAuth : List Str
deriving DecidableEq, Repr

/-- The zero value `&GitCredential{}` that `ReadCredential` starts from. -/
def emptyCredential : GitCredential := ⟨[], [], [], [], [], none, [], []⟩

deriving instance DecidableEq for Except

/-- `isValidGitCredentialHelperValue` from `credential.go` (lines 146-150).
Despite its name it returns `true` when the value is INVALID (contains a NUL
or newline), exactly as in the source. -/
def isValidGitCredentialHelperValue (s : Str) : Bool :=
  s.contains '\x00' || s.contains '\n'

/-- The decimal digit characters, for Go's `fmt.Sprintf("%d", ...)`. -/
def digitChar (d : Nat) : Char :=
  match d with
  | 0 => '0' | 1 => '1' | 2 => '2' | 3 => '3' | 4 => '4'
  | 5 => '5' | 6 => '6' | 7 => '7' | 8 => '8' | _ => '9'

/-- Decimal rendering of a natural number, most significant digit first. -/
def natToStr (n : Nat) : Str :=
  if n = 0 then ['0'] else ((Nat.digits 10 n).map digitChar).reverse

/-- Go `fmt.Sprintf("%d", i)` for an `int64`. -/
def intToStr (i : Int) : Str :=
  if i < 0 then '-' :: natToStr i.natAbs else natToStr i.toNat

def isDigitChar (c : Char) : Bool := '0' ≤ c && c ≤ '9'

def digitVal (c : Char) : Nat := c.toNat - 48

/-- The value of an all-digits decimal string. -/
def parseNatCore (s : Str) : Nat := s.foldl (fun a c => 10 * a + digitVal c) 0

/-- Decimal parse of an unsigned digit string (none on empty or non-digit). -/
def parseNat (s : Str) : Option Nat :=
  if s ≠ [] ∧ s.all isDigitChar then some (parseNatCore s) else none

/-- Go `strconv.ParseInt(s, 10, 64)`: optional sign, decimal digits, and an
`int64` range check. -/
def parseInt64 (s : Str) : Option Int :=
  match s with
  | [] => none
  | c :: t =>
    if c = '-' then
      (parseNat t).bind (fun n => if n ≤ 2 ^ 63 then some (-(n : Int)) else none)
    else if c = '+' then
      (parseNat t).bind (fun n => if n < 2 ^ 63 then some ((n : Int)) else none)
    else
      (parseNat s).bind (fun n => if n < 2 ^ 63 then some ((n : Int)) else none)

/-- `GitCredential.WriteTo` from `credential.go` (lines 42-144), writing to an
in-memory buffer: the pair of the bytes written and the returned error.  The
buffer writer cannot fail, so the per-write error returns of the source never
fire; the written byte count is the length of the first component (`0` on a
validation error, matching the source's early returns). -/
def writeTo (c : GitCredential) : Str × Option GoError :=
  if isValidGitCredentialHelperValue c.protocol then
    ([], some (lit "protocol cannot contain NUL character or newline"))
  else if isValidGitCredentialHelperValue c.host then
    ([], some (lit "host cannot contain NUL character or newline"))
  else if isValidGitCredentialHelperValue c.path then
    ([], some (lit "path cannot contain NUL character or newline"))
  else if isValidGitCredentialHelperValue c.username then
    ([], some (lit "username cannot contain NUL character or newline"))
  else if isValidGitCredentialHelperValue c.password then
    ([], some (lit "password cannot contain NUL character or newline"))
  else if isValidGitCredentialHelperValue c.oauthRefreshToken then
    ([], some (lit "oauth_refresh_token cannot contain NUL character or newline"))
  else
    ((if c.protocol ≠ [] then lit "protocol=" ++ c.protocol ++ ['\n'] else [])
      ++ (if c.host ≠ [] then lit "host=" ++ c.host ++ ['\n'] else [])
      ++ (if c.path ≠ [] then lit "path=" ++ c.path ++ ['\n'] else [])
      ++ (if c.username ≠ [] then lit "username=" ++ c.username ++ ['\n'] else [])
      ++ (if c.password ≠ [] then lit "password=" ++ c.password ++ ['\n'] else [])
      ++ (match c.passwordExpiry with
          | some t => lit "password_expiry_utc=" ++ intToStr t ++ ['\n']
          | none => [])
      ++ (if c.oauthRefreshToken ≠ [] then
            lit "oauth_refresh_token=" ++ c.oauthRefreshToken ++ ['\n']
          else []),
      none)

/-- `c` is not the character `d` (the scanning predicate of the reader). -/
def neCh (d c : Char) : Bool := c ≠ d

/-- `bufio.Reader.ReadString(delim)` over the remaining input: the data read
(including the delimiter when found), the remaining input, and whether the
delimiter was found (`false` models the `io.EOF` error return). -/
def readStringD (delim : Char) (s : Str) : Str × Str × Bool :=
  match s.dropWhile (neCh delim) with
  | [] => (s.takeWhile (neCh delim), [], false)
  | _ :: t => (s.takeWhile (neCh delim) ++ [delim], t, true)

/-- Modelled from the spec: the `url` key's value is parsed by go-git's
`transport.NewEndpoint`, which is third-party code not part of this
repository.  Per §4.5 of the spec the url is "parsed into
protocol/host/path, overriding those three"; we model the common
`scheme://host/path` shape and reject values without a `://`. -/
def newEndpointModel (val : Str) : Except GoError (Str × Str × Str) :=
  let scheme := val.takeWhile (fun c => c ≠ ':')
  let rest := val.dropWhile (fun c => c ≠ ':')
  if hasPrefix rest (lit "://") then
    let hp := rest.drop 3
    .ok (scheme, hp.takeWhile (fun c => c ≠ '/'), hp.dropWhile (fun c => c ≠ '/'))
  else
    .error (lit "invalid endpoint")

/-- One arm of the `switch key` statement of `ReadCredential`
(`credential.go` lines 181-226), applied to the accumulated credential. -/
def applyKey (c : GitCredential) (key val : Str) : Except GoError GitCredential :=
  if key = lit "protocol" then .ok { c with protocol := val }
  else if key = lit "host" then .ok { c with host := val }
  else if key = lit "path" then .ok { c with path := val }
  else if key = lit "username" then .ok { c with username := val }
  else if key = lit "password" then .ok { c with password := val }
  else if key = lit "password_expiry_utc" then
    match parseInt64 val with
    | none => .error (lit "invalid password_expiry_utc")
    | some v => .ok { c with passwordExpiry := some v }
  else if key = lit "oauth_refresh_token" then .ok { c with oauthRefreshToken := val }
  else if key = lit "url" then
    match newEndpointModel val with
    | .error e => .error e
    | .ok (proto, host, path) =>
      let p := trimPrefix path (lit "/")
      .ok { c with protocol := proto, host := host,
                   path := if p = [] then lit "/" else p }
  else if key = lit "wwwauth[]" then
    if val = [] then .ok { c with wwwAuth := [] }
    else .ok { c with wwwAuth := c.wwwAuth ++ [val] }
  else .ok c

/-- The read loop of `ReadCredential` (`credential.go` lines 155-227):
repeatedly read `key=`, then `value\n`, apply the key, and recurse; stop with
the accumulated credential on end of input before any key character, and with
`unexpected EOF` when end of input interrupts a key or a value. -/
def readCredLoop (c : GitCredential) (s : Str) : Except GoError GitCredential :=
  let kr := readStringD '=' s
  if hk : kr.2.2 = false then
    if kr.1 = [] then .ok c else .error (lit "unexpected EOF")
  else
    let key := trimSuffix kr.1 ['=']
    let vr := readStringD '\n' kr.2.1
    if hv : vr.2.2 = false then .error (lit "unexpected EOF")
    else
      let val := trimSuffix vr.1 ['\n']
      match applyKey c key val with
      | .error e => .error e
      | .ok c2 => readCredLoop c2 vr.2.1
termination_by s.length
decreasing_by
  have key : ∀ (d : Char) (u : Str),
      (readStringD d u).2.2 = true → (readStringD d u).2.1.length < u.length := by
    intro d u h
    have hle : (u.dropWhile (neCh d)).length ≤ u.length :=
      (List.dropWhile_sublist _).length_le
    cases hdrop : u.dropWhile (neCh d) with
    | nil => simp [readStringD, hdrop] at h
    | cons a t =>
      rw [hdrop] at hle
      simp only [List.length_cons] at hle
      simp [readStringD, hdrop]
      omega
  have h1 := key '=' s (by simpa using hk)
  have h2 := key '\n' (readStringD '=' s).2.1 (by simpa using hv)
  exact Nat.lt_trans h2 h1

/-- `ReadCredential` from `credential.go` (lines 152-228). -/
def readCredential (s : Str) : Except GoError GitCredential :=
  readCredLoop emptyCredential s

/-- The `key=value\n` lines of a credential block. -/
def renderLines (kvs : List (Str × Str)) : Str :=
  kvs.flatMap (fun kv => kv.1 ++ '=' :: (kv.2 ++ ['\n']))

/-- Applying a sequence of `key=value` assignments in order, stopping at the
first failing one — the pure content of the read loop. -/
def applyKeys : GitCredential → List (Str × Str) → Except GoError GitCredential
  | c, [] => .ok c
  | c, kv :: t =>
    match applyKey c kv.1 kv.2 with
    | .error e => .error e
    | .ok c2 => applyKeys c2 t

/-- A list of lines whose keys contain no `=` and whose values contain no
newline — the shape under which `key=value\n` rendering is unambiguous. -/
def linesWF (kvs : List (Str × Str)) : Prop :=
  ∀ kv ∈ kvs, ('=' ∉ kv.1) ∧ ('\n' ∉ kv.2)

/-- The `password_expiry_utc` pair emitted for an optional expiry. -/
def expiryPair (o : Option Int) : List (Str × Str) :=
  match o with
  | some t => [(lit "password_expiry_utc", intToStr t)]
  | none => []

/-- The `(key, value)` pairs `WriteTo` emits for a record, in emission
order. -/
def fieldPairs (c : GitCredential) : List (Str × Str) :=
  (if c.protocol ≠ [] then [(lit "protocol", c.protocol)] else [])
    ++ (if c.host ≠ [] then [(lit "host", c.host)] else [])
    ++ (if c.path ≠ [] then [(lit "path", c.path)] else [])
    ++ (if c.username ≠ [] then [(lit "username", c.username)] else [])
    ++ (if c.password ≠ [] then [(lit "password", c.password)] else [])
    ++ expiryPair c.passwordExpiry
    ++ (if c.oauthRefreshToken ≠ [] then [(lit "oauth_refresh_token", c.oauthRefreshToken)] else [])

/-! ## Existing-directory reconciliation (`prepareExistingDirectory`,
`internal/checkout/source_provider.go` lines 982-1129) -/

/-- The filesystem and git-CLI observations `prepareExistingDirectory` makes,
modelled as an oracle.  Each field records what the corresponding call would
return on this workspace. -/
structure RepoEnv where
  /-- `os.Stat(repositoryPath/.git)` succeeds and reports a directory. -/
  gitDirIsDir : Bool
  /-- `cli.GetConfig(false, "remote.origin.url")`. -/
  originUrl : Except GoError Str
  /-- `os.Stat(.git/index.lock)` succeeds (the lock file exists). -/
  indexLockExists : Bool
  /-- `os.Stat(.git/shallow.lock)` succeeds (the lock file exists). -/
  shallowLockExists : Bool
  /-- `cli.IsDetached()`. -/
  isDetached : Except GoError Bool
  /-- `cli.CheckoutDetach()` succeeds. -/
  checkoutDetachOk : Bool
  /-- `cli.BranchList(false)` (local branches). -/
  localBranches : Except GoError (List Str)
  /-- The local branches whose `cli.BranchDelete(false, b)` fails. -/
  localBranchDeleteFails : List Str
  /-- `cli.BranchList(true)` (remote-tracking branches). -/
  remoteBranches : Except GoError (List Str)
  /-- The remote branches whose `cli.BranchDelete(true, b)` fails. -/
  remoteBranchDeleteFails : List Str
  /-- `cli.SubmoduleStatus()` succeeds. -/
  submoduleStatusOk : Bool
  /-- `cli.Clean()` succeeds. -/
  cleanOk : Bool
  /-- `cli.Reset()` succeeds. -/
  resetOk : Bool

/-- `prepareExistingDirectory` from `source_provider.go` (lines 982-1129),
reduced to the value of its `remove` flag: `true` exactly when the function
reaches the final block that deletes the contents of the repository
directory.  Each `let` transcribes one of the source's `if !remove { ... }`
steps in order (a step that is skipped because `remove` is already `true`
contributes nothing, which `||` models faithfully).

In the lock-file step (source lines 996-1008) the source enters the branch
when `os.Stat(lockPath)` FAILS — i.e. when the lock file does not exist —
and then calls `os.Remove(lockPath)`, which necessarily fails on a missing
path, so `remove` is set and the loop breaks. -/
def prepareExistingDirectory (env : RepoEnv) (repositoryURL : Str) (clean : Bool)
    (ref : Str) : Bool :=
  let remove := !env.gitDirIsDir
  let remove := remove ||
    (match env.originUrl with
     | .error _ => true
     | .ok origin => if repositoryURL ≠ trimSpace origin then true else false)
  let remove := remove ||
    (if ¬ env.indexLockExists then true
     else if ¬ env.shallowLockExists then true
     else false)
  let remove := remove ||
    (match env.isDetached with
     | .error _ => true
     | .ok detached =>
       if ¬ detached then (if ¬ env.checkoutDetachOk then true else false) else false)
  let remove := remove ||
    (match env.localBranches with
     | .error _ => true
     | .ok bs => bs.any (fun b => env.localBranchDeleteFails.contains b))
  let ref2 := if ¬ hasPrefix ref (lit "refs/") then lit "refs/heads/" ++ ref else ref
  let remove := remove ||
    (if hasPrefix ref2 (lit "refs/heads/") then
      match env.remoteBranches with
      | .error _ => true
      | .ok bs =>
        let name1 := toLower (trimPrefix ref2 (lit "refs/heads/"))
        bs.any (fun b =>
          let name2 := toLower (trimPrefix b (lit "origin/"))
          (hasPrefix name1 (name2 ++ ['/']) || hasPrefix name2 (name1 ++ ['/']))
            && env.remoteBranchDeleteFails.contains b)
    else false)
  let remove := remove || !env.submoduleStatusOk
  let remove := remove ||
    (if clean then
      (if ¬ env.cleanOk then true else if ¬ env.resetOk then true else false)
    else false)
  remove

/-! ## Credential helper `get`: subsection selection (`cmd/helper.go`) -/

/-- A config subsection (`format.Subsection`), reduced to the only field the
selection loop reads: its name. -/
structure Subsection where
  name : Str
deriving DecidableEq, Repr

/-- The `closest` selection loop of `doGet` (`cmd/helper.go` lines 112-119):
scan the subsections in order, keeping the first prefix-matching subsection
of strictly greatest name length. -/
def doGetSelect (subs : List Subsection) (target : Str) : Option Subsection :=
  subs.foldl
    (fun closest ss =>
      if hasPrefix target ss.name then
        match closest with
        | none => some ss
        | some c => if c.name.length < ss.name.length then some ss else some c
      else closest)
    none

/-- `doGet` after the selection (`cmd/helper.go` lines 121-124 and onward):
when no subsection matched it returns `nil` having emitted nothing
(`.ok []`); otherwise the response is produced from the chosen subsection by
the rest of the handler, abstracted as `respond`. -/
def doGetEmit (subs : List Subsection) (target : Str)
    (respond : Subsection → Except GoError Str) : Except GoError Str :=
  match doGetSelect subs target with
  | none => .ok []
  | some ss => respond ss

/-! ## SSH URL classification and normalization (`internal/checkout/urls.go`)

The three Go regular expressions are embedded as nondeterministic matchers:
a `Matcher` maps an input to the list of suffixes remaining after every
possible match of the pattern against a prefix of the input.  A full
(`^...$`) regex match is a run leaving the empty suffix; an end-unanchored
(`^...`) match is any run at all. -/

abbrev Matcher := Str → List Str

/-- Match one character satisfying `p`. -/
def mChar (p : Char → Bool) : Matcher := fun s =>
  match s with
  | [] => []
  | c :: t => if p c then [t] else []

/-- Match the literal string `l`. -/
def mLit (l : Str) : Matcher := fun s =>
  if l.isPrefixOf s then [s.drop l.length] else []

/-- Sequencing of matchers. -/
def mSeq (a b : Matcher) : Matcher := fun s => (a s).flatMap b

/-- `a?`: zero or one occurrence. -/
def mOpt (a : Matcher) : Matcher := fun s => s :: a s

/-- At most `fuel` repetitions of `a`.  Since every repetition of the
sub-patterns used here consumes at least one character, `fuel = s.length`
covers every possible run of `a*` on `s`. -/
def mStarFuel (a : Matcher) : Nat → Matcher
  | 0 => fun s => [s]
  | n + 1 => fun s => s :: (a s).flatMap (mStarFuel a n)

/-- `a*`: any number of repetitions. -/
def mStar (a : Matcher) : Matcher := fun s => mStarFuel a s.length s

/-- `a+`: one or more repetitions. -/
def mPlus (a : Matcher) : Matcher := mSeq a (mStar a)

/-- `[a-zA-Z]` -/
def isAlphaAscii (c : Char) : Bool := ('a' ≤ c && c ≤ 'z') || ('A' ≤ c && c ≤ 'Z')

/-- `[0-9]` -/
def isDigit09 (c : Char) : Bool := '0' ≤ c && c ≤ '9'

/-- `[-a-zA-Z0-9_]` (the user-name continuation class). -/
def isUserCont (c : Char) : Bool := c = '-' || isAlphaAscii c || isDigit09 c || c = '_'

/-- `[a-z0-9]` (the host start class). -/
def isHostStart (c : Char) : Bool := ('a' ≤ c && c ≤ 'z') || isDigit09 c

/-- `[-a-z0-9_\.]` (the host continuation class). -/
def isHostCont (c : Char) : Bool :=
  c = '-' || ('a' ≤ c && c ≤ 'z') || isDigit09 c || c = '_' || c = '.'

/-- `[\w_\-\.~]` (the path segment class; `\w` is `[0-9A-Za-z_]`). -/
def isPathChar (c : Char) : Bool :=
  isDigit09 c || isAlphaAscii c || c = '_' || c = '-' || c = '.' || c = '~'

/-- `([a-zA-Z][-a-zA-Z0-9_]*@)?` -/
def mUser : Matcher :=
  mOpt (mSeq (mChar isAlphaAscii)
    (mSeq (mStar (mChar isUserCont)) (mChar (fun c => c = '@'))))

/-- `[a-z0-9][-a-z0-9_\.]*` -/
def mHost : Matcher := mSeq (mChar isHostStart) (mStar (mChar isHostCont))

/-- `userAndHostRegex` from `urls.go` line 12. -/
def mUserAndHost : Matcher := mSeq mUser mHost

/-- `/?[\w_\-\.~]+` — one path segment with an optional leading slash. -/
def mPathSeg : Matcher :=
  mSeq (mOpt (mChar (fun c => c = '/'))) (mPlus (mChar isPathChar))

def sshPrefix : Str := lit "ssh://"

/-- `sshURLRegexScheme` from `urls.go` line 15:
`^ssh://UH(:|/)(/?[\w_\-\.~]+)*$`. -/
def sshURLRegexScheme : Matcher :=
  mSeq (mLit sshPrefix)
    (mSeq mUserAndHost
      (mSeq (mChar (fun c => c = ':' || c = '/')) (mStar mPathSeg)))

/-- `sshURLRegexScp` from `urls.go` line 18:
`^UH:/?[\w_\-\.~]+(/?[\w_\-\.~]+)*$`. -/
def sshURLRegexScp : Matcher :=
  mSeq mUserAndHost (mSeq (mChar (fun c => c = ':')) (mPlus mPathSeg))

/-- `sshURLRegexWithPort` from `urls.go` line 19: `^ssh://UH:[^0-9]+`
(anchored only at the start). -/
def sshURLRegexWithPort : Matcher :=
  mSeq (mLit sshPrefix)
    (mSeq mUserAndHost
      (mSeq (mChar (fun c => c = ':')) (mPlus (mChar (fun c => !isDigit09 c)))))

/-- `regexp.MatchString` for a `^...$` pattern: some run consumes the whole
input. -/
def anchoredMatch (m : Matcher) (s : Str) : Bool := (m s).any List.isEmpty

/-- `regexp.MatchString` for a `^...` pattern: some run matches a prefix. -/
def someMatch (m : Matcher) (s : Str) : Bool := !(m s).isEmpty

/-- `isSSHURL` from `urls.go` (lines 21-23). -/
def isSSHURL (s : Str) : Bool :=
  anchoredMatch sshURLRegexScheme s || anchoredMatch sshURLRegexScp s

/-- `normalizeSSHURL` from `urls.go` (lines 25-44). -/
def normalizeSSHURL (s : Str) : Str :=
  if ¬ isSSHURL s then s
  else
    let s1 := if hasPrefix s sshPrefix then s else sshPrefix ++ s
    if someMatch sshURLRegexWithPort s1 then
      let l := lastIndexChar ':' s1
      if l > -1 then
        s1.take l.toNat ++ '/' :: trimLeftSlash (s1.drop (l.toNat + 1))
      else s1
    else s1

/-- `m` only consumes characters satisfying `P`: every residue `t` of a run
on `s` comes from peeling off a prefix of `P`-characters. -/
def MConsumes (P : Char → Prop) (m : Matcher) : Prop :=
  ∀ s t, t ∈ m s → ∃ u, s = u ++ t ∧ ∀ c ∈ u, P c

/-- Stub git CLI oracle used to instantiate CLI-polymorphic theorems. -/
def stubCLI : GitCLI := ⟨fun _ _ => .ok false, fun _ => .ok false⟩

example : getRefSpec (lit "refs/heads/main") (lit "SHA") (lit "github")
    = [lit "+SHA:refs/remotes/origin/main"] := by decide

example : getRefSpec (lit "main") [] (lit "github")
    = [lit "+refs/heads/main*:refs/remotes/origin/main*",
       lit "+refs/tags/main*:refs/tags/main*"] := by decide

example : getRefSpec (lit "refs/pull/42") [] (lit "github")
    = [lit "+refs/pull/42:refs/remotes/pull/42"] := by decide

example (cli : GitCLI) : getCheckoutInfo cli (lit "refs/pull/42") []
    = .ok ⟨lit "42", lit "refs/remotes/pull/42"⟩ := by
  simp [getCheckoutInfo, hasPrefix, toLower, lit]

/-! ### Generic facts about the Go string helpers -/

namespace GoStrings

theorem toLower_append (a b : Str) : toLower (a ++ b) = toLower a ++ toLower b :=
  List.map_append _ _ _

theorem hasPrefix_self_append (p x : Str) : hasPrefix (p ++ x) p = true := by
  simp [hasPrefix]

theorem hasPrefix_cancel (c t b : Str) :
    hasPrefix (c ++ t) (c ++ b) = hasPrefix t b := by
  rw [Bool.eq_iff_iff]
  simp [hasPrefix]

theorem hasPrefix_cons_ne {a b : Char} (x y : Str) (h : a ≠ b) :
    hasPrefix (a :: x) (b :: y) = false := by
  rw [Bool.eq_false_iff]
  simp [hasPrefix, List.cons_prefix_cons, Ne.symm h]

end GoStrings

/-- `toLower` fixes the all-lowercase literal `refs/heads/` and pushes into
the tail. -/
theorem toLower_refs_heads (x : Str) :
    toLower (lit "refs/heads/" ++ x) = lit "refs/heads/" ++ toLower x := by
  rw [toLower_append]
  congr 1

theorem toLower_refs_pull (x : Str) :
    toLower (lit "refs/pull/" ++ x) = lit "refs/pull/" ++ toLower x := by
  rw [toLower_append]
  congr 1

theorem toLower_refs_tags (x : Str) :
    toLower (lit "refs/tags/" ++ x) = lit "refs/tags/" ++ toLower x := by
  rw [toLower_append]
  congr 1

theorem hp_pull_heads (x : Str) :
    hasPrefix (lit "refs/pull/" ++ x) (lit "refs/heads/") = false := by
  show hasPrefix (lit "refs/" ++ ('p' :: (lit "ull/" ++ x)))
      (lit "refs/" ++ ('h' :: lit "eads/")) = false
  rw [hasPrefix_cancel]
  exact hasPrefix_cons_ne _ _ (by decide)

theorem hp_tags_heads (x : Str) :
    hasPrefix (lit "refs/tags/" ++ x) (lit "refs/heads/") = false := by
  show hasPrefix (lit "refs/" ++ ('t' :: (lit "ags/" ++ x)))
      (lit "refs/" ++ ('h' :: lit "eads/")) = false
  rw [hasPrefix_cancel]
  exact hasPrefix_cons_ne _ _ (by decide)

theorem hp_tags_pull (x : Str) :
    hasPrefix (lit "refs/tags/" ++ x) (lit "refs/pull/") = false := by
  show hasPrefix (lit "refs/" ++ ('t' :: (lit "ags/" ++ x)))
      (lit "refs/" ++ ('p' :: lit "ull/")) = false
  rw [hasPrefix_cancel]
  exact hasPrefix_cons_ne _ _ (by decide)

theorem hp_heads_refs (x : Str) :
    hasPrefix (lit "refs/heads/" ++ x) (lit "refs/") = true := by
  show hasPrefix (lit "refs/" ++ (lit "heads/" ++ x)) (lit "refs/" ++ []) = true
  rw [hasPrefix_cancel]
  simp [hasPrefix]

theorem hp_pull_refs (x : Str) :
    hasPrefix (lit "refs/pull/" ++ x) (lit "refs/") = true := by
  show hasPrefix (lit "refs/" ++ (lit "pull/" ++ x)) (lit "refs/" ++ []) = true
  rw [hasPrefix_cancel]
  simp [hasPrefix]

/-! ### Behaviour of `getRefSpec`, branch by branch -/

theorem getRefSpec_pinned_heads (name commit provider : Str) (h : commit ≠ []) :
    getRefSpec (lit "refs/heads/" ++ name) commit provider
      = [refspec commit (lit "refs/remotes/origin/" ++ name)] := by
  unfold getRefSpec
  rw [if_pos h, toLower_refs_heads, if_pos]
  · rw [List.drop_left' (by decide)]
  · rw [hasPrefix_self_append]

theorem getRefSpec_pinned_pull (name commit provider : Str) (h : commit ≠ []) :
    getRefSpec (lit "refs/pull/" ++ name) commit provider
      = [refspec commit (lit "refs/remotes/pull/" ++ name)] := by
  unfold getRefSpec
  rw [if_pos h, toLower_refs_pull, if_neg, if_pos]
  · rw [List.drop_left' (by decide)]
  · rw [hasPrefix_self_append]
  · rw [hp_pull_heads]
    simp

theorem getRefSpec_pinned_tags (name commit provider : Str) (h : commit ≠ []) :
    getRefSpec (lit "refs/tags/" ++ name) commit provider
      = [refspec commit (lit "refs/tags/" ++ name)] := by
  unfold getRefSpec
  rw [if_pos h, toLower_refs_tags, if_neg, if_neg, if_pos]
  · rw [hasPrefix_self_append]
  · rw [hp_tags_pull]
    simp
  · rw [hp_tags_heads]
    simp

theorem getRefSpec_pinned_other (ref commit provider : Str) (h : commit ≠ [])
    (h1 : hasPrefix (toLower ref) (lit "refs/heads/") = false)
    (h2 : hasPrefix (toLower ref) (lit "refs/pull/") = false)
    (h3 : hasPrefix (toLower ref) (lit "refs/tags/") = false) :
    getRefSpec ref commit provider
      = if provider = BitbucketProvider then [commit, ref] else [commit] := by
  unfold getRefSpec
  rw [if_pos h, if_neg, if_neg, if_neg] <;> simp [h1, h2, h3]

theorem getRefSpec_unpinned_bare (ref provider : Str)
    (h : hasPrefix (toLower ref) (lit "refs/") = false) :
    getRefSpec ref [] provider
      = [ '+' :: (lit "refs/heads/" ++ ref ++ ['*'])
            ++ ':' :: (lit "refs/remotes/origin/" ++ ref ++ ['*']),
          '+' :: (lit "refs/tags/" ++ ref ++ ['*'])
            ++ ':' :: (lit "refs/tags/" ++ ref ++ ['*'])] := by
  unfold getRefSpec
  rw [if_neg (by simp), if_pos]
  simp [h]

theorem getRefSpec_unpinned_heads (name provider : Str) :
    getRefSpec (lit "refs/heads/" ++ name) [] provider
      = [refspec (lit "refs/heads/" ++ name) (lit "refs/remotes/origin/" ++ name)] := by
  unfold getRefSpec
  rw [if_neg (by simp), toLower_refs_heads, if_neg, if_pos]
  · rw [List.drop_left' (by decide)]
  · rw [hasPrefix_self_append]
  · rw [hp_heads_refs]
    simp

theorem getRefSpec_unpinned_pull (name provider : Str) :
    getRefSpec (lit "refs/pull/" ++ name) [] provider
      = [refspec (lit "refs/pull/" ++ name) (lit "refs/remotes/pull/" ++ name)] := by
  unfold getRefSpec
  rw [if_neg (by simp), toLower_refs_pull, if_neg, if_neg, if_pos]
  · rw [List.drop_left' (by decide)]
  · rw [hasPrefix_self_append]
  · rw [hp_pull_heads]
    simp
  · rw [hp_pull_refs]
    simp

theorem getRefSpec_unpinned_other (ref provider : Str)
    (h0 : hasPrefix (toLower ref) (lit "refs/") = true)
    (h1 : hasPrefix (toLower ref) (lit "refs/heads/") = false)
    (h2 : hasPrefix (toLower ref) (lit "refs/pull/") = false) :
    getRefSpec ref [] provider = [refspec ref ref] := by
  unfold getRefSpec
  rw [if_neg (by simp), if_neg, if_neg, if_neg] <;> simp [h0, h1, h2]

/-! ### Behaviour of `getCheckoutInfo`, branch by branch -/

theorem getCheckoutInfo_heads (cli : GitCLI) (name commit : Str) :
    getCheckoutInfo cli (lit "refs/heads/" ++ name) commit
      = .ok ⟨name, lit "refs/remotes/origin/" ++ name⟩ := by
  have hne : lit "refs/heads/" ++ name ≠ [] := by
    intro hcontra
    exact absurd (List.append_eq_nil.mp hcontra).1 (by decide)
  unfold getCheckoutInfo
  rw [if_neg (fun hc => hne hc.1), if_neg hne, toLower_refs_heads, if_pos]
  · rw [List.drop_left' (by decide)]
  · rw [hasPrefix_self_append]

theorem getCheckoutInfo_pull (cli : GitCLI) (name commit : Str) :
    getCheckoutInfo cli (lit "refs/pull/" ++ name) commit
      = .ok ⟨name, lit "refs/remotes/pull/" ++ name⟩ := by
  have hne : lit "refs/pull/" ++ name ≠ [] := by
    intro hcontra
    exact absurd (List.append_eq_nil.mp hcontra).1 (by decide)
  unfold getCheckoutInfo
  rw [if_neg (fun hc => hne hc.1), if_neg hne, toLower_refs_pull, if_neg, if_pos]
  · rw [List.drop_left' (by decide)]
  · rw [hasPrefix_self_append]
  · rw [hp_pull_heads]
    simp

theorem getCheckoutInfo_detached (cli : GitCLI) (commit : Str) (h : commit ≠ []) :
    getCheckoutInfo cli [] commit = .ok ⟨commit, []⟩ := by
  unfold getCheckoutInfo
  rw [if_neg, if_pos rfl]
  simp [h]

theorem getCheckoutInfo_both_empty (cli : GitCLI) :
    getCheckoutInfo cli [] [] = .error (lit "Ref and commit cannot both be empty") := by
  unfold getCheckoutInfo
  rw [if_pos ⟨rfl, rfl⟩]

/-! ### Claim theorems about ref/commit resolution -/

/-- **C5**: `getCheckoutInfo` maps `refs/pull/42` with empty commit to
`{ref:"42", startPoint:"refs/remotes/pull/42"}`; maps `refs/heads/<name>` to
`{ref:<name>, startPoint:"refs/remotes/origin/<name>"}`; maps an empty ref with
non-empty commit to the detached checkout `{ref:commit, startPoint:""}`; and
fails with an error when ref and commit are both empty. -/
theorem c5_getCheckoutInfo :
    (∀ cli : GitCLI, getCheckoutInfo cli (lit "refs/pull/42") []
        = .ok ⟨lit "42", lit "refs/remotes/pull/42"⟩)
    ∧ (∀ (cli : GitCLI) (name commit : Str),
        getCheckoutInfo cli (lit "refs/heads/" ++ name) commit
          = .ok ⟨name, lit "refs/remotes/origin/" ++ name⟩)
    ∧ (∀ (cli : GitCLI) (commit : Str), commit ≠ [] →
        getCheckoutInfo cli [] commit = .ok ⟨commit, []⟩)
    ∧ (∀ cli : GitCLI, ∃ e, getCheckoutInfo cli [] [] = .error e) := by
  refine ⟨fun cli => ?_, getCheckoutInfo_heads, getCheckoutInfo_detached,
    fun cli => ⟨_, getCheckoutInfo_both_empty cli⟩⟩
  exact getCheckoutInfo_pull cli (lit "42") []

/-- Witness for C5 at concrete inputs. -/
theorem c5_getCheckoutInfo_witness :
    getCheckoutInfo stubCLI [] (lit "abc") = .ok ⟨lit "abc", []⟩ :=
  c5_getCheckoutInfo.2.2.1 stubCLI (lit "abc") (by decide)

/-- **C4 counterexample**: for the `refs/`-prefixed ref `refs/pull/42` with
empty commit, `getRefSpec` does not return `["+refs/pull/42:refs/pull/42"]`
(as the claim's final clause states); it returns
`["+refs/pull/42:refs/remotes/pull/42"]`. -/
theorem c4_getRefSpec_pull_counterexample :
    getRefSpec (lit "refs/pull/42") [] (lit "github")
      = [lit "+refs/pull/42:refs/remotes/pull/42"]
    ∧ getRefSpec (lit "refs/pull/42") [] (lit "github")
      ≠ [lit "+refs/pull/42:refs/pull/42"] := by
  exact ⟨by decide, by decide⟩

/-- **C4** (amended): `getRefSpec` returns exactly
`["+SHA:refs/remotes/origin/main"]` for `refs/heads/main` with a pinned
commit, exactly `["+SHA:refs/tags/v1"]` for `refs/tags/v1` with a pinned
commit, the two glob refspecs for the bare ref `main` with empty commit, and
`["+ref:ref"]` for a `refs/`-prefixed ref with empty commit whose lowercase
form starts with neither `refs/heads/` nor `refs/pull/`; with empty commit a
`refs/heads/<b>` ref yields `["+refs/heads/<b>:refs/remotes/origin/<b>"]` and
a `refs/pull/<n>` ref yields `["+refs/pull/<n>:refs/remotes/pull/<n>"]`. -/
theorem c4_getRefSpec_amended :
    (∀ commit provider : Str, commit ≠ [] →
      getRefSpec (lit "refs/heads/main") commit provider
        = ['+' :: commit ++ ':' :: lit "refs/remotes/origin/main"])
    ∧ (∀ commit provider : Str, commit ≠ [] →
      getRefSpec (lit "refs/tags/v1") commit provider
        = ['+' :: commit ++ ':' :: lit "refs/tags/v1"])
    ∧ (∀ provider : Str,
      getRefSpec (lit "main") [] provider
        = [lit "+refs/heads/main*:refs/remotes/origin/main*",
           lit "+refs/tags/main*:refs/tags/main*"])
    ∧ (∀ ref provider : Str,
      hasPrefix (toLower ref) (lit "refs/") = true →
      hasPrefix (toLower ref) (lit "refs/heads/") = false →
      hasPrefix (toLower ref) (lit "refs/pull/") = false →
      getRefSpec ref [] provider = [refspec ref ref])
    ∧ (∀ name provider : Str,
      getRefSpec (lit "refs/heads/" ++ name) [] provider
        = [refspec (lit "refs/heads/" ++ name) (lit "refs/remotes/origin/" ++ name)])
    ∧ (∀ name provider : Str,
      getRefSpec (lit "refs/pull/" ++ name) [] provider
        = [refspec (lit "refs/pull/" ++ name) (lit "refs/remotes/pull/" ++ name)]) := by
  refine ⟨fun commit provider h => ?_, fun commit provider h => ?_,
    fun provider => getRefSpec_unpinned_bare (lit "main") provider (by decide),
    getRefSpec_unpinned_other, getRefSpec_unpinned_heads, getRefSpec_unpinned_pull⟩
  · exact getRefSpec_pinned_heads (lit "main") commit provider h
  · exact getRefSpec_pinned_tags (lit "v1") commit provider h

/-- Witness for C4 at concrete inputs. -/
theorem c4_getRefSpec_amended_witness :
    getRefSpec (lit "refs/heads/main") (lit "0123abc") (lit "github")
      = [lit "+0123abc:refs/remotes/origin/main"] :=
  c4_getRefSpec_amended.1 (lit "0123abc") (lit "github") (by decide)

/-- **C10**: with a non-empty commit and a ref not classified as a branch, PR
or tag ref, `getRefSpec` returns `[commit, ref]` for the `bitbucket` provider
and `[commit]` for every other provider. -/
theorem c10_getRefSpec_bitbucket_extra_ref :
    ∀ ref commit provider : Str, commit ≠ [] →
      hasPrefix (toLower ref) (lit "refs/heads/") = false →
      hasPrefix (toLower ref) (lit "refs/pull/") = false →
      hasPrefix (toLower ref) (lit "refs/tags/") = false →
      getRefSpec ref commit BitbucketProvider = [commit, ref]
      ∧ (provider ≠ BitbucketProvider → getRefSpec ref commit provider = [commit]) := by
  intro ref commit provider h h1 h2 h3
  constructor
  · rw [getRefSpec_pinned_other ref commit BitbucketProvider h h1 h2 h3, if_pos rfl]
  · intro hp
    rw [getRefSpec_pinned_other ref commit provider h h1 h2 h3, if_neg hp]

/-- Witness for C10 at concrete inputs (the empty ref and a pinned commit). -/
theorem c10_getRefSpec_bitbucket_extra_ref_witness :
    getRefSpec [] (lit "abc") BitbucketProvider = [lit "abc", []]
    ∧ getRefSpec [] (lit "abc") (lit "github") = [lit "abc"] := by
  have h := c10_getRefSpec_bitbucket_extra_ref [] (lit "abc") (lit "github")
    (by decide) (by decide) (by decide) (by decide)
  exact ⟨h.1, h.2 (by decide)⟩

/-! ### The reader primitives, characterized -/

theorem takeWhile_neCh_stop (d : Char) (pre rest : Str) (h : d ∉ pre) :
    (pre ++ d :: rest).takeWhile (neCh d) = pre := by
  induction pre with
  | nil => simp [neCh]
  | cons a t ih =>
    simp only [List.mem_cons, not_or] at h
    have ha : a ≠ d := fun hc => h.1 hc.symm
    simp [List.takeWhile_cons, neCh, ha, ih h.2]

theorem dropWhile_neCh_stop (d : Char) (pre rest : Str) (h : d ∉ pre) :
    (pre ++ d :: rest).dropWhile (neCh d) = d :: rest := by
  induction pre with
  | nil => simp [neCh]
  | cons a t ih =>
    simp only [List.mem_cons, not_or] at h
    have ha : a ≠ d := fun hc => h.1 hc.symm
    simp [List.dropWhile_cons, neCh, ha, ih h.2]

theorem takeWhile_neCh_all (d : Char) (s : Str) (h : d ∉ s) :
    s.takeWhile (neCh d) = s := by
  induction s with
  | nil => rfl
  | cons a t ih =>
    simp only [List.mem_cons, not_or] at h
    have ha : a ≠ d := fun hc => h.1 hc.symm
    simp [List.takeWhile_cons, neCh, ha, ih h.2]

theorem dropWhile_neCh_all (d : Char) (s : Str) (h : d ∉ s) :
    s.dropWhile (neCh d) = [] := by
  induction s with
  | nil => rfl
  | cons a t ih =>
    simp only [List.mem_cons, not_or] at h
    have ha : a ≠ d := fun hc => h.1 hc.symm
    simp [List.dropWhile_cons, neCh, ha, ih h.2]

theorem readStringD_found (d : Char) (pre rest : Str) (h : d ∉ pre) :
    readStringD d (pre ++ d :: rest) = (pre ++ [d], rest, true) := by
  unfold readStringD
  rw [dropWhile_neCh_stop d pre rest h, takeWhile_neCh_stop d pre rest h]

theorem readStringD_eof (d : Char) (s : Str) (h : d ∉ s) :
    readStringD d s = (s, [], false) := by
  unfold readStringD
  rw [dropWhile_neCh_all d s h, takeWhile_neCh_all d s h]

theorem trimSuffix_append_single (pre : Str) (d : Char) :
    trimSuffix (pre ++ [d]) [d] = pre := by
  unfold trimSuffix hasSuffix
  rw [if_pos]
  · simp
  · simp

theorem readCredLoop_nil (c : GitCredential) : readCredLoop c [] = .ok c := by
  unfold readCredLoop
  simp [readStringD]

theorem readCredLoop_cons (c : GitCredential) (key val rest : Str)
    (hk : '=' ∉ key) (hv : '\n' ∉ val) :
    readCredLoop c (key ++ '=' :: (val ++ '\n' :: rest))
      = match applyKey c key val with
        | .error e => .error e
        | .ok c2 => readCredLoop c2 rest := by
  conv_lhs => rw [readCredLoop]
  rw [readStringD_found '=' key (val ++ '\n' :: rest) hk]
  rw [dif_neg (by simp)]
  rw [readStringD_found '\n' val rest hv]
  rw [dif_neg (by simp)]
  rw [trimSuffix_append_single key '=', trimSuffix_append_single val '\n']

theorem readCredLoop_trailing_key (c : GitCredential) (k : Str)
    (hne : k ≠ []) (hk : '=' ∉ k) :
    readCredLoop c k = .error (lit "unexpected EOF") := by
  conv_lhs => rw [readCredLoop]
  rw [readStringD_eof '=' k hk]
  rw [dif_pos rfl, if_neg hne]

theorem readCredLoop_trailing_val (c : GitCredential) (k v : Str)
    (hk : '=' ∉ k) (hv : '\n' ∉ v) :
    readCredLoop c (k ++ '=' :: v) = .error (lit "unexpected EOF") := by
  conv_lhs => rw [readCredLoop]
  rw [readStringD_found '=' k v hk]
  rw [dif_neg (by simp)]
  rw [readStringD_eof '\n' v hv]
  rw [dif_pos rfl]

theorem applyKeys_append (c : GitCredential) (a b : List (Str × Str)) :
    applyKeys c (a ++ b)
      = match applyKeys c a with
        | .error e => .error e
        | .ok c2 => applyKeys c2 b := by
  induction a generalizing c with
  | nil => simp [applyKeys]
  | cons kv t ih =>
    simp only [List.cons_append, applyKeys]
    cases applyKey c kv.1 kv.2 with
    | error e => rfl
    | ok c2 => exact ih c2

theorem readCredLoop_render (kvs : List (Str × Str)) (tail : Str)
    (c : GitCredential) (h : linesWF kvs) :
    readCredLoop c (renderLines kvs ++ tail)
      = match applyKeys c kvs with
        | .error e => .error e
        | .ok c2 => readCredLoop c2 tail := by
  induction kvs generalizing c with
  | nil => simp [renderLines, applyKeys]
  | cons kv t ih =>
    have hkv := h kv (by simp)
    have ht : linesWF t := fun x hx => h x (by simp [hx])
    have hsplit : renderLines (kv :: t) ++ tail
        = kv.1 ++ '=' :: (kv.2 ++ '\n' :: (renderLines t ++ tail)) := by
      simp [renderLines, List.append_assoc]
    rw [hsplit, readCredLoop_cons c kv.1 kv.2 _ hkv.1 hkv.2]
    cases happ : applyKey c kv.1 kv.2 with
    | error e => simp [applyKeys, happ]
    | ok c2 => simp [applyKeys, happ, ih c2 ht]

theorem readCredential_render (kvs : List (Str × Str)) (h : linesWF kvs) :
    readCredential (renderLines kvs) = applyKeys emptyCredential kvs := by
  unfold readCredential
  have := readCredLoop_render kvs [] emptyCredential h
  rw [List.append_nil] at this
  rw [this]
  cases applyKeys emptyCredential kvs with
  | error e => rfl
  | ok c2 => exact readCredLoop_nil c2

/-! ### `applyKey` on each concrete key -/

theorem applyKey_protocol (a : GitCredential) (v : Str) :
    applyKey a (lit "protocol") v = .ok { a with protocol := v } := by
  unfold applyKey
  rw [if_pos rfl]

theorem applyKey_host (a : GitCredential) (v : Str) :
    applyKey a (lit "host") v = .ok { a with host := v } := by
  unfold applyKey
  rw [if_neg (by decide), if_pos rfl]

theorem applyKey_path (a : GitCredential) (v : Str) :
    applyKey a (lit "path") v = .ok { a with path := v } := by
  unfold applyKey
  rw [if_neg (by decide), if_neg (by decide), if_pos rfl]

theorem applyKey_username (a : GitCredential) (v : Str) :
    applyKey a (lit "username") v = .ok { a with username := v } := by
  unfold applyKey
  rw [if_neg (by decide), if_neg (by decide), if_neg (by decide), if_pos rfl]

theorem applyKey_password (a : GitCredential) (v : Str) :
    applyKey a (lit "password") v = .ok { a with password := v } := by
  unfold applyKey
  rw [if_neg (by decide), if_neg (by decide), if_neg (by decide), if_neg (by decide),
    if_pos rfl]

theorem applyKey_expiry (a : GitCredential) (v : Str) :
    applyKey a (lit "password_expiry_utc") v
      = match parseInt64 v with
        | none => .error (lit "invalid password_expiry_utc")
        | some t => .ok { a with passwordExpiry := some t } := by
  unfold applyKey
  rw [if_neg (by decide), if_neg (by decide), if_neg (by decide), if_neg (by decide),
    if_neg (by decide), if_pos rfl]

theorem applyKey_oauth (a : GitCredential) (v : Str) :
    applyKey a (lit "oauth_refresh_token") v = .ok { a with oauthRefreshToken := v } := by
  unfold applyKey
  rw [if_neg (by decide), if_neg (by decide), if_neg (by decide), if_neg (by decide),
    if_neg (by decide), if_neg (by decide), if_pos rfl]

theorem applyKey_wwwauth_append (a : GitCredential) (v : Str) (h : v ≠ []) :
    applyKey a (lit "wwwauth[]") v = .ok { a with wwwAuth := a.wwwAuth ++ [v] } := by
  unfold applyKey
  rw [if_neg (by decide), if_neg (by decide), if_neg (by decide), if_neg (by decide),
    if_neg (by decide), if_neg (by decide), if_neg (by decide), if_neg (by decide),
    if_pos rfl, if_neg h]

theorem applyKey_wwwauth_reset (a : GitCredential) :
    applyKey a (lit "wwwauth[]") [] = .ok { a with wwwAuth := [] } := by
  unfold applyKey
  rw [if_neg (by decide), if_neg (by decide), if_neg (by decide), if_neg (by decide),
    if_neg (by decide), if_neg (by decide), if_neg (by decide), if_neg (by decide),
    if_pos rfl, if_pos rfl]

/-! ### Decimal rendering round-trips through decimal parsing -/

theorem digitVal_digitChar (d : Nat) (h : d < 10) : digitVal (digitChar d) = d := by
  interval_cases d <;> decide

theorem isDigitChar_digitChar (d : Nat) (h : d < 10) : isDigitChar (digitChar d) = true := by
  interval_cases d <;> decide

theorem parseNatCore_rev (L : List Nat) (h : ∀ d ∈ L, d < 10) :
    parseNatCore ((L.map digitChar).reverse) = Nat.ofDigits 10 L := by
  induction L with
  | nil => rfl
  | cons d L ih =>
    have hd : d < 10 := h d (by simp)
    have hL : ∀ x ∈ L, x < 10 := fun x hx => h x (by simp [hx])
    simp only [List.map_cons, List.reverse_cons]
    unfold parseNatCore at *
    rw [List.foldl_append]
    simp only [List.foldl_cons, List.foldl_nil]
    rw [ih hL, digitVal_digitChar d hd, Nat.ofDigits_cons]
    omega

theorem natToStr_all_digits (n : Nat) : ∀ c ∈ natToStr n, isDigitChar c = true := by
  intro c hc
  unfold natToStr at hc
  by_cases h : n = 0
  · rw [if_pos h] at hc
    simp at hc
    subst hc
    decide
  · rw [if_neg h] at hc
    simp only [List.mem_reverse, List.mem_map] at hc
    obtain ⟨d, hd, rfl⟩ := hc
    exact isDigitChar_digitChar d (Nat.digits_lt_base (by norm_num) hd)

theorem natToStr_ne_nil (n : Nat) : natToStr n ≠ [] := by
  unfold natToStr
  by_cases h : n = 0
  · simp [h]
  · simp [h, Nat.digits_ne_nil_iff_ne_zero.mpr h]

theorem parseNat_natToStr (n : Nat) : parseNat (natToStr n) = some n := by
  unfold parseNat
  rw [if_pos ⟨natToStr_ne_nil n, List.all_eq_true.mpr (natToStr_all_digits n)⟩]
  by_cases h : n = 0
  · subst h
    decide
  · unfold natToStr
    rw [if_neg h,
      parseNatCore_rev _ (fun d hd => Nat.digits_lt_base (by norm_num) hd),
      Nat.ofDigits_digits]

theorem intToStr_chars (t : Int) : ∀ c ∈ intToStr t, c = '-' ∨ isDigitChar c = true := by
  intro c hc
  unfold intToStr at hc
  by_cases h : t < 0
  · rw [if_pos h] at hc
    rcases List.mem_cons.mp hc with h1 | h1
    · exact Or.inl h1
    · exact Or.inr (natToStr_all_digits _ c h1)
  · rw [if_neg h] at hc
    exact Or.inr (natToStr_all_digits _ c hc)

theorem newline_not_mem_intToStr (t : Int) : '\n' ∉ intToStr t := by
  intro hc
  rcases intToStr_chars t '\n' hc with h | h
  · exact absurd h (by decide)
  · exact absurd h (by decide)

theorem parseInt64_cons (c : Char) (t : Str) :
    parseInt64 (c :: t)
      = (if c = '-' then
          (parseNat t).bind (fun n => if n ≤ 2 ^ 63 then some (-(n : Int)) else none)
        else if c = '+' then
          (parseNat t).bind (fun n => if n < 2 ^ 63 then some ((n : Int)) else none)
        else
          (parseNat (c :: t)).bind (fun n => if n < 2 ^ 63 then some ((n : Int)) else none)) :=
  rfl

theorem parseInt64_intToStr (t : Int) (h1 : -(2 ^ 63) ≤ t) (h2 : t < 2 ^ 63) :
    parseInt64 (intToStr t) = some t := by
  by_cases hneg : t < 0
  · unfold intToStr
    rw [if_pos hneg, parseInt64_cons, if_pos rfl, parseNat_natToStr]
    simp only [Option.some_bind]
    rw [if_pos (by omega)]
    congr 1
    omega
  · have hcons : ∃ c cs, natToStr t.toNat = c :: cs := by
      cases hns : natToStr t.toNat with
      | nil => exact absurd hns (natToStr_ne_nil _)
      | cons c cs => exact ⟨c, cs, rfl⟩
    obtain ⟨c, cs, hns⟩ := hcons
    have hcd : isDigitChar c = true := natToStr_all_digits _ c (by rw [hns]; simp)
    have hcm : c ≠ '-' := by
      intro hcontra
      rw [hcontra] at hcd
      exact absurd hcd (by decide)
    have hcp : c ≠ '+' := by
      intro hcontra
      rw [hcontra] at hcd
      exact absurd hcd (by decide)
    unfold intToStr
    rw [if_neg hneg, hns, parseInt64_cons, if_neg hcm, if_neg hcp, ← hns, parseNat_natToStr]
    simp only [Option.some_bind]
    rw [if_pos (by omega)]
    congr 1
    omega

/-! ### `WriteTo` output as rendered lines -/

theorem renderLines_append (a b : List (Str × Str)) :
    renderLines (a ++ b) = renderLines a ++ renderLines b := by
  simp [renderLines]

theorem writeTo_valid (c : GitCredential)
    (hp : isValidGitCredentialHelperValue c.protocol = false)
    (hh : isValidGitCredentialHelperValue c.host = false)
    (hpa : isValidGitCredentialHelperValue c.path = false)
    (hu : isValidGitCredentialHelperValue c.username = false)
    (hpw : isValidGitCredentialHelperValue c.password = false)
    (ho : isValidGitCredentialHelperValue c.oauthRefreshToken = false) :
    writeTo c = (renderLines (fieldPairs c), none) := by
  unfold writeTo
  rw [if_neg (by simp [hp]), if_neg (by simp [hh]), if_neg (by simp [hpa]),
    if_neg (by simp [hu]), if_neg (by simp [hpw]), if_neg (by simp [ho])]
  have hchunk : ∀ (b : Prop) [Decidable b] (k v : Str),
      renderLines (if b then [(k, v)] else []) = if b then k ++ '=' :: (v ++ ['\n']) else [] := by
    intro b _ k v
    by_cases hb : b <;> simp [renderLines, hb]
  have hexpiry : ∀ o : Option Int,
      renderLines (expiryPair o)
      = (match o with
        | some t => lit "password_expiry_utc" ++ '=' :: (intToStr t ++ ['\n'])
        | none => []) := by
    intro o
    cases o with
    | none => rfl
    | some t =>
      show (lit "password_expiry_utc" ++ '=' :: (intToStr t ++ ['\n'])) ++ [] = _
      rw [List.append_nil]
  unfold fieldPairs
  rw [renderLines_append, renderLines_append, renderLines_append, renderLines_append,
    renderLines_append, renderLines_append]
  rw [hchunk, hchunk, hchunk, hchunk, hchunk, hchunk, hexpiry]
  rfl

/-! ### Folding the emitted field pairs back into a record -/

theorem applyKeys_chunk_protocol (a : GitCredential) (v : Str) (rest : List (Str × Str)) :
    applyKeys a ((if v ≠ [] then [(lit "protocol", v)] else []) ++ rest)
      = applyKeys { a with protocol := if v ≠ [] then v else a.protocol } rest := by
  by_cases hv : v = []
  · simp [hv]
  · simp [hv, applyKeys, applyKey_protocol]

theorem applyKeys_chunk_host (a : GitCredential) (v : Str) (rest : List (Str × Str)) :
    applyKeys a ((if v ≠ [] then [(lit "host", v)] else []) ++ rest)
      = applyKeys { a with host := if v ≠ [] then v else a.host } rest := by
  by_cases hv : v = []
  · simp [hv]
  · simp [hv, applyKeys, applyKey_host]

theorem applyKeys_chunk_path (a : GitCredential) (v : Str) (rest : List (Str × Str)) :
    applyKeys a ((if v ≠ [] then [(lit "path", v)] else []) ++ rest)
      = applyKeys { a with path := if v ≠ [] then v else a.path } rest := by
  by_cases hv : v = []
  · simp [hv]
  · simp [hv, applyKeys, applyKey_path]

theorem applyKeys_chunk_username (a : GitCredential) (v : Str) (rest : List (Str × Str)) :
    applyKeys a ((if v ≠ [] then [(lit "username", v)] else []) ++ rest)
      = applyKeys { a with username := if v ≠ [] then v else a.username } rest := by
  by_cases hv : v = []
  · simp [hv]
  · simp [hv, applyKeys, applyKey_username]

theorem applyKeys_chunk_password (a : GitCredential) (v : Str) (rest : List (Str × Str)) :
    applyKeys a ((if v ≠ [] then [(lit "password", v)] else []) ++ rest)
      = applyKeys { a with password := if v ≠ [] then v else a.password } rest := by
  by_cases hv : v = []
  · simp [hv]
  · simp [hv, applyKeys, applyKey_password]

theorem applyKeys_chunk_oauth (a : GitCredential) (v : Str) (rest : List (Str × Str)) :
    applyKeys a ((if v ≠ [] then [(lit "oauth_refresh_token", v)] else []) ++ rest)
      = applyKeys { a with oauthRefreshToken := if v ≠ [] then v else a.oauthRefreshToken } rest := by
  by_cases hv : v = []
  · simp [hv]
  · simp [hv, applyKeys, applyKey_oauth]

theorem applyKeys_chunk_expiry (a : GitCredential) (o : Option Int) (rest : List (Str × Str))
    (ho : ∀ v ∈ o, -(2 ^ 63) ≤ v ∧ v < 2 ^ 63) :
    applyKeys a (expiryPair o ++ rest)
      = applyKeys { a with passwordExpiry := o.elim a.passwordExpiry some } rest := by
  cases o with
  | none => simp [expiryPair, Option.elim]
  | some t =>
    have hr := ho t (by simp)
    simp [expiryPair, applyKeys, applyKey_expiry, parseInt64_intToStr t hr.1 hr.2, Option.elim]

theorem applyKeys_fieldPairs (c : GitCredential)
    (hexp : ∀ v ∈ c.passwordExpiry, -(2 ^ 63) ≤ v ∧ v < 2 ^ 63) :
    applyKeys emptyCredential (fieldPairs c) = .ok { c with wwwAuth := [] } := by
  have hid : ∀ v : Str, (if v ≠ [] then v else ([] : Str)) = v := by
    intro v
    by_cases hv : v = [] <;> simp [hv]
  rw [← List.append_nil (fieldPairs c)]
  unfold fieldPairs
  simp only [List.append_assoc]
  rw [applyKeys_chunk_protocol, applyKeys_chunk_host, applyKeys_chunk_path,
    applyKeys_chunk_username, applyKeys_chunk_password,
    applyKeys_chunk_expiry _ _ _ hexp, applyKeys_chunk_oauth]
  show Except.ok _ = _
  congr 1
  rcases c with ⟨p, ho, pa, u, pw, ex, oa, ww⟩
  simp [emptyCredential, hid]
  cases ex <;> simp [Option.elim]

theorem not_newline_of_valid (s : Str)
    (h : isValidGitCredentialHelperValue s = false) : '\n' ∉ s := by
  unfold isValidGitCredentialHelperValue at h
  rw [Bool.or_eq_false_iff] at h
  intro hc
  have : s.contains '\n' = true := by
    simpa using hc
  rw [this] at h
  exact absurd h.2 (by decide)

theorem fieldPairs_wf (c : GitCredential)
    (hp : isValidGitCredentialHelperValue c.protocol = false)
    (hh : isValidGitCredentialHelperValue c.host = false)
    (hpa : isValidGitCredentialHelperValue c.path = false)
    (hu : isValidGitCredentialHelperValue c.username = false)
    (hpw : isValidGitCredentialHelperValue c.password = false)
    (ho : isValidGitCredentialHelperValue c.oauthRefreshToken = false) :
    linesWF (fieldPairs c) := by
  intro kv hkv
  unfold fieldPairs at hkv
  simp only [List.mem_append] at hkv
  rcases hkv with ((((((h1 | h1) | h1) | h1) | h1) | h1) | h1)
  · by_cases hc : c.protocol = [] <;> simp [hc] at h1
    rw [h1]
    exact ⟨(by decide : '=' ∉ lit "protocol"), not_newline_of_valid _ hp⟩
  · by_cases hc : c.host = [] <;> simp [hc] at h1
    rw [h1]
    exact ⟨(by decide : '=' ∉ lit "host"), not_newline_of_valid _ hh⟩
  · by_cases hc : c.path = [] <;> simp [hc] at h1
    rw [h1]
    exact ⟨(by decide : '=' ∉ lit "path"), not_newline_of_valid _ hpa⟩
  · by_cases hc : c.username = [] <;> simp [hc] at h1
    rw [h1]
    exact ⟨(by decide : '=' ∉ lit "username"), not_newline_of_valid _ hu⟩
  · by_cases hc : c.password = [] <;> simp [hc] at h1
    rw [h1]
    exact ⟨(by decide : '=' ∉ lit "password"), not_newline_of_valid _ hpw⟩
  · cases hex : c.passwordExpiry with
    | none => rw [hex] at h1; simp [expiryPair] at h1
    | some t =>
      rw [hex] at h1
      simp [expiryPair] at h1
      rw [h1]
      exact ⟨(by decide : '=' ∉ lit "password_expiry_utc"), newline_not_mem_intToStr t⟩
  · by_cases hc : c.oauthRefreshToken = [] <;> simp [hc] at h1
    rw [h1]
    exact ⟨(by decide : '=' ∉ lit "oauth_refresh_token"), not_newline_of_valid _ ho⟩

theorem fieldPairs_keys (c : GitCredential) :
    ∀ kv ∈ fieldPairs c,
      kv.1 ∈ [lit "protocol", lit "host", lit "path", lit "username", lit "password",
        lit "password_expiry_utc", lit "oauth_refresh_token"] := by
  intro kv hkv
  unfold fieldPairs at hkv
  simp only [List.mem_append] at hkv
  rcases hkv with ((((((h1 | h1) | h1) | h1) | h1) | h1) | h1)
  · by_cases hc : c.protocol = [] <;> simp [hc] at h1
    simp [h1]
  · by_cases hc : c.host = [] <;> simp [hc] at h1
    simp [h1]
  · by_cases hc : c.path = [] <;> simp [hc] at h1
    simp [h1]
  · by_cases hc : c.username = [] <;> simp [hc] at h1
    simp [h1]
  · by_cases hc : c.password = [] <;> simp [hc] at h1
    simp [h1]
  · cases hex : c.passwordExpiry with
    | none => rw [hex] at h1; simp [expiryPair] at h1
    | some t =>
      rw [hex] at h1
      simp [expiryPair] at h1
      simp [h1]
  · by_cases hc : c.oauthRefreshToken = [] <;> simp [hc] at h1
    simp [h1]

/-! ### Claim theorems about the credential wire format -/

/-- **C2 counterexample**: a record with a non-empty `WwwAuth` list does not
round-trip: `WriteTo` never emits `wwwauth[]` lines, so parsing the output
yields a record with an empty `WwwAuth` list. -/
theorem c2_roundtrip_counterexample :
    writeTo ⟨[], lit "h", [], [], [], none, [], [lit "a"]⟩ = (lit "host=h\n", none)
    ∧ readCredential (lit "host=h\n")
        ≠ .ok ⟨[], lit "h", [], [], [], none, [], [lit "a"]⟩ := by
  constructor
  · decide
  · have hren : lit "host=h\n" = renderLines [(lit "host", lit "h")] := by decide
    rw [hren, readCredential_render _ (by unfold linesWF; decide)]
    decide

/-- **C2** (amended): for every record none of whose string fields contains a
NUL or newline, whose expiry (an `int64` number of Unix seconds) is in the
`int64` range, and whose `WwwAuth` list is empty, serializing with `WriteTo`
and parsing with `ReadCredential` yields the original record.  (Without the
`WwwAuth` restriction the claim is false: `WriteTo` never emits `wwwauth[]`.) -/
theorem c2_roundtrip_amended (c : GitCredential)
    (hp : isValidGitCredentialHelperValue c.protocol = false)
    (hh : isValidGitCredentialHelperValue c.host = false)
    (hpa : isValidGitCredentialHelperValue c.path = false)
    (hu : isValidGitCredentialHelperValue c.username = false)
    (hpw : isValidGitCredentialHelperValue c.password = false)
    (ho : isValidGitCredentialHelperValue c.oauthRefreshToken = false)
    (hexp : ∀ v ∈ c.passwordExpiry, -(2 ^ 63) ≤ v ∧ v < 2 ^ 63)
    (hww : c.wwwAuth = []) :
    readCredential (writeTo c).1 = .ok c := by
  rw [writeTo_valid c hp hh hpa hu hpw ho]
  show readCredential (renderLines (fieldPairs c)) = _
  rw [readCredential_render _ (fieldPairs_wf c hp hh hpa hu hpw ho),
    applyKeys_fieldPairs c hexp, ← hww]

/-- Witness for C2 at a concrete record. -/
theorem c2_roundtrip_amended_witness :
    readCredential
        (writeTo ⟨lit "https", lit "github.com", [], lit "u", lit "p", some 5, [], []⟩).1
      = .ok ⟨lit "https", lit "github.com", [], lit "u", lit "p", some 5, [], []⟩ :=
  c2_roundtrip_amended _ (by decide) (by decide) (by decide) (by decide) (by decide)
    (by decide)
    (by
      intro v hv
      simp at hv
      subst hv
      constructor <;> norm_num)
    rfl

/-- **C3 counterexample**: a blank line is not a successful terminator.  On
`"protocol=https\n\n"` the claim predicts a successful stop at the blank line
returning the accumulated credential, but `ReadCredential` reads the trailing
`"\n"` while scanning for the next `=`, hits end of input, and fails with
`unexpected EOF`. -/
theorem c3_blank_line_counterexample :
    readCredential (lit "protocol=https\n\n") = .error (lit "unexpected EOF") := by
  have hren : lit "protocol=https\n\n"
      = renderLines [(lit "protocol", lit "https")] ++ ['\n'] := by decide
  rw [hren]
  unfold readCredential
  rw [readCredLoop_render _ _ _ (by unfold linesWF; decide)]
  have happ : applyKeys emptyCredential [(lit "protocol", lit "https")]
      = .ok ⟨lit "https", [], [], [], [], none, [], []⟩ := by decide
  rw [happ]
  exact readCredLoop_trailing_key _ ['\n'] (by decide) (by decide)

/-- **C3** (amended): `ReadCredential` consumes `key=value\n` lines and stops
successfully at end of input, returning the credential accumulated so far (a
blank line is not a terminator); an input whose trailing key is not terminated
by `=`, or whose trailing value is not terminated by a newline, yields an
unexpected-EOF error and no credential. -/
theorem c3_readCredential_amended :
    (∀ kvs : List (Str × Str), linesWF kvs →
      readCredential (renderLines kvs) = applyKeys emptyCredential kvs)
    ∧ (∀ (kvs : List (Str × Str)) (k : Str) (c2 : GitCredential), linesWF kvs →
        applyKeys emptyCredential kvs = .ok c2 → k ≠ [] → '=' ∉ k →
        readCredential (renderLines kvs ++ k) = .error (lit "unexpected EOF"))
    ∧ (∀ (kvs : List (Str × Str)) (k v : Str) (c2 : GitCredential), linesWF kvs →
        applyKeys emptyCredential kvs = .ok c2 → '=' ∉ k → '\n' ∉ v →
        readCredential (renderLines kvs ++ (k ++ '=' :: v))
          = .error (lit "unexpected EOF")) := by
  refine ⟨readCredential_render, ?_, ?_⟩
  · intro kvs k c2 hwf happ hne hkm
    unfold readCredential
    rw [readCredLoop_render _ _ _ hwf, happ]
    exact readCredLoop_trailing_key c2 k hne hkm
  · intro kvs k v c2 hwf happ hkm hvm
    unfold readCredential
    rw [readCredLoop_render _ _ _ hwf, happ]
    exact readCredLoop_trailing_val c2 k v hkm hvm

/-- Witness for C3 at concrete inputs. -/
theorem c3_readCredential_amended_witness :
    readCredential (renderLines [(lit "protocol", lit "https")] ++ lit "x")
      = .error (lit "unexpected EOF") :=
  c3_readCredential_amended.2.1 [(lit "protocol", lit "https")] (lit "x")
    ⟨lit "https", [], [], [], [], none, [], []⟩ (by unfold linesWF; decide) (by decide)
    (by decide) (by decide)

/-- **C6**: for valid fields `WriteTo` writes exactly the non-empty fields as
`key=value\n` lines in the fixed order protocol, host, path, username,
password, password_expiry_utc, oauth_refresh_token (the keys emitted are
among these seven, so no `url` or `wwwauth[]` line is ever written); when any
of the six string fields contains a newline or NUL it returns an error
having written zero bytes. -/
theorem c6_writeTo_fields :
    (∀ c : GitCredential,
      isValidGitCredentialHelperValue c.protocol = false →
      isValidGitCredentialHelperValue c.host = false →
      isValidGitCredentialHelperValue c.path = false →
      isValidGitCredentialHelperValue c.username = false →
      isValidGitCredentialHelperValue c.password = false →
      isValidGitCredentialHelperValue c.oauthRefreshToken = false →
      writeTo c = (renderLines (fieldPairs c), none))
    ∧ (∀ c : GitCredential, ∀ kv ∈ fieldPairs c,
        kv.1 ∈ [lit "protocol", lit "host", lit "path", lit "username", lit "password",
          lit "password_expiry_utc", lit "oauth_refresh_token"])
    ∧ (∀ c : GitCredential,
        (isValidGitCredentialHelperValue c.protocol = true
          ∨ isValidGitCredentialHelperValue c.host = true
          ∨ isValidGitCredentialHelperValue c.path = true
          ∨ isValidGitCredentialHelperValue c.username = true
          ∨ isValidGitCredentialHelperValue c.password = true
          ∨ isValidGitCredentialHelperValue c.oauthRefreshToken = true) →
        ∃ e, writeTo c = ([], some e)) := by
  refine ⟨writeTo_valid, fieldPairs_keys, ?_⟩
  intro c h
  unfold writeTo
  by_cases h1 : isValidGitCredentialHelperValue c.protocol = true
  · rw [if_pos h1]
    exact ⟨_, rfl⟩
  · rw [if_neg h1]
    by_cases h2 : isValidGitCredentialHelperValue c.host = true
    · rw [if_pos h2]
      exact ⟨_, rfl⟩
    · rw [if_neg h2]
      by_cases h3 : isValidGitCredentialHelperValue c.path = true
      · rw [if_pos h3]
        exact ⟨_, rfl⟩
      · rw [if_neg h3]
        by_cases h4 : isValidGitCredentialHelperValue c.username = true
        · rw [if_pos h4]
          exact ⟨_, rfl⟩
        · rw [if_neg h4]
          by_cases h5 : isValidGitCredentialHelperValue c.password = true
          · rw [if_pos h5]
            exact ⟨_, rfl⟩
          · rw [if_neg h5]
            by_cases h6 : isValidGitCredentialHelperValue c.oauthRefreshToken = true
            · rw [if_pos h6]
              exact ⟨_, rfl⟩
            · rcases h with h | h | h | h | h | h <;> simp_all

/-- Witness for C6 at a concrete record. -/
theorem c6_writeTo_fields_witness :
    writeTo ⟨lit "https", [], [], [], [], none, [], []⟩
      = (renderLines (fieldPairs ⟨lit "https", [], [], [], [], none, [], []⟩), none) :=
  c6_writeTo_fields.1 _ (by decide) (by decide) (by decide) (by decide) (by decide)
    (by decide)

/-- **C7**: in `ReadCredential` a `wwwauth[]=<v>` line with non-empty `v`
appends `v` to the accumulated list, a `wwwauth[]=` line resets the list,
and parsing `wwwauth[]=a`, `wwwauth[]=`, `wwwauth[]=b` yields exactly
`["b"]`. -/
theorem c7_wwwauth_accumulate_reset :
    (∀ (c : GitCredential) (v : Str), v ≠ [] →
      applyKey c (lit "wwwauth[]") v = .ok { c with wwwAuth := c.wwwAuth ++ [v] })
    ∧ (∀ c : GitCredential,
      applyKey c (lit "wwwauth[]") [] = .ok { c with wwwAuth := [] })
    ∧ readCredential (lit "wwwauth[]=a\nwwwauth[]=\nwwwauth[]=b\n")
        = .ok ⟨[], [], [], [], [], none, [], [lit "b"]⟩ := by
  refine ⟨applyKey_wwwauth_append, applyKey_wwwauth_reset, ?_⟩
  have hren : lit "wwwauth[]=a\nwwwauth[]=\nwwwauth[]=b\n"
      = renderLines [(lit "wwwauth[]", lit "a"), (lit "wwwauth[]", []),
          (lit "wwwauth[]", lit "b")] := by decide
  rw [hren, readCredential_render _ (by unfold linesWF; decide)]
  decide

/-- Witness for C7 at a concrete record. -/
theorem c7_wwwauth_accumulate_reset_witness :
    applyKey emptyCredential (lit "wwwauth[]") (lit "x")
      = .ok ⟨[], [], [], [], [], none, [], [lit "x"]⟩ :=
  c7_wwwauth_accumulate_reset.1 emptyCredential (lit "x") (by decide)

/-- **C1**: evaluation of `prepareExistingDirectory` at the claim's inputs.
First conjunct — the failing input of the claim: `.git` is a directory, the
stored origin URL equals the target URL, there are NO stale lock files, no
submodule corruption, and `clean=false`; the code nevertheless deletes the
directory contents (`remove = true`), because the lock-file check is
inverted: `os.Stat` on the absent `index.lock` fails, the code then calls
`os.Remove` on the missing path, that fails too, and `remove` is set — the
opposite of the best-effort deletion its own comment describes.  Second
conjunct: with both lock files PRESENT the same state is kept
(`remove = false`).  Third conjunct: an origin-URL mismatch deletes the
contents, as the claim states. -/
theorem c1_prepareExistingDirectory_lock_inversion :
    prepareExistingDirectory
        ⟨true, .ok (lit "https://example.com/org/repo.git"), false, false, .ok true, true,
          .ok [], [], .ok [], [], true, true, true⟩
        (lit "https://example.com/org/repo.git") false (lit "refs/heads/main") = true
    ∧ prepareExistingDirectory
        ⟨true, .ok (lit "https://example.com/org/repo.git"), true, true, .ok true, true,
          .ok [], [], .ok [], [], true, true, true⟩
        (lit "https://example.com/org/repo.git") false (lit "refs/heads/main") = false
    ∧ prepareExistingDirectory
        ⟨true, .ok (lit "https://example.com/org/other.git"), true, true, .ok true, true,
          .ok [], [], .ok [], [], true, true, true⟩
        (lit "https://example.com/org/repo.git") false (lit "refs/heads/main") = true := by
  refine ⟨by decide, by decide, by decide⟩

theorem select_fold_spec (target : Str) (subs : List Subsection) :
    ∀ (acc : Option Subsection) (s : Subsection),
      (∀ a, acc = some a → hasPrefix target a.name = true) →
      List.foldl (fun closest ss =>
        if hasPrefix target ss.name then
          match closest with
          | none => some ss
          | some c => if c.name.length < ss.name.length then some ss else some c
        else closest) acc subs = some s →
      (hasPrefix target s.name = true)
      ∧ (s ∈ subs ∨ acc = some s)
      ∧ (∀ ss ∈ subs, hasPrefix target ss.name = true → ss.name.length ≤ s.name.length)
      ∧ (∀ a, acc = some a → a.name.length ≤ s.name.length) := by
  induction subs with
  | nil =>
    intro acc s hP hfold
    simp only [List.foldl_nil] at hfold
    refine ⟨hP s hfold, Or.inr hfold, by simp, fun a ha => ?_⟩
    rw [ha] at hfold
    cases hfold
    exact Nat.le_refl _
  | cons ss t ih =>
    intro acc s hP hfold
    simp only [List.foldl_cons] at hfold
    by_cases hpre : hasPrefix target ss.name = true
    · -- the head matches: the accumulator becomes a subsection at least as long
      have hstep : ∃ b, (if hasPrefix target ss.name then
            match acc with
            | none => some ss
            | some c => if c.name.length < ss.name.length then some ss else some c
          else acc) = some b
          ∧ ss.name.length ≤ b.name.length
          ∧ (b = ss ∨ acc = some b)
          ∧ (∀ a, acc = some a → a.name.length ≤ b.name.length) := by
        cases acc with
        | none =>
          show ∃ b, (if hasPrefix target ss.name then some ss else none) = some b ∧ _
          rw [if_pos hpre]
          exact ⟨ss, rfl, Nat.le_refl _, Or.inl rfl, by simp⟩
        | some c =>
          show ∃ b, (if hasPrefix target ss.name then
              (if c.name.length < ss.name.length then some ss else some c)
            else some c) = some b ∧ _
          rw [if_pos hpre]
          by_cases hlt : c.name.length < ss.name.length
          · rw [if_pos hlt]
            refine ⟨ss, rfl, Nat.le_refl _, Or.inl rfl, fun a ha => ?_⟩
            cases ha
            exact Nat.le_of_lt hlt
          · rw [if_neg hlt]
            refine ⟨c, rfl, Nat.le_of_not_lt hlt, Or.inr rfl, fun a ha => ?_⟩
            cases ha
            exact Nat.le_refl _
      obtain ⟨b, hb, hlen, hbcase, haccb⟩ := hstep
      rw [hb] at hfold
      have hP' : ∀ a, (some b : Option Subsection) = some a → hasPrefix target a.name = true := by
        intro a ha
        cases ha
        rcases hbcase with rfl | hacc
        · exact hpre
        · exact hP b hacc
      obtain ⟨h1, h2, h3, h4⟩ := ih (some b) s hP' hfold
      refine ⟨h1, ?_, ?_, ?_⟩
      · rcases h2 with h2 | h2
        · exact Or.inl (List.mem_cons_of_mem _ h2)
        · cases h2
          rcases hbcase with rfl | hacc
          · exact Or.inl (List.mem_cons_self _ _)
          · exact Or.inr hacc
      · intro ss' hss' hpre'
        rcases List.mem_cons.mp hss' with rfl | hss'
        · exact Nat.le_trans hlen (h4 b rfl)
        · exact h3 ss' hss' hpre'
      · intro a ha
        exact Nat.le_trans (haccb a ha) (h4 b rfl)
    · have hpre' : hasPrefix target ss.name = false := by
        simpa using hpre
      rw [if_neg (by simp [hpre'])] at hfold
      obtain ⟨h1, h2, h3, h4⟩ := ih acc s hP hfold
      refine ⟨h1, ?_, ?_, h4⟩
      · rcases h2 with h2 | h2
        · exact Or.inl (List.mem_cons_of_mem _ h2)
        · exact Or.inr h2
      · intro ss' hss' hp'
        rcases List.mem_cons.mp hss' with rfl | hss'
        · rw [hpre'] at hp'
          cases hp'
        · exact h3 ss' hss' hp'

theorem doGetSelect_none (subs : List Subsection) (target : Str)
    (h : ∀ ss ∈ subs, hasPrefix target ss.name = false) :
    doGetSelect subs target = none := by
  unfold doGetSelect
  induction subs with
  | nil => rfl
  | cons ss t ih =>
    simp only [List.foldl_cons]
    rw [if_neg (by simp [h ss (List.mem_cons_self _ _)])]
    exact ih (fun x hx => h x (List.mem_cons_of_mem _ hx))

/-- **C8**: the `get` handler's subsection selection picks, among the
subsections of the request's protocol section, a prefix-matching subsection
of maximal name length — with `"host.com"` and `"host.com/org"` against
target `"host.com/org/repo"` it picks `"host.com/org"` — and when no
subsection name prefix-matches the target it emits nothing and returns
success. -/
theorem c8_doGet_longest_prefix :
    (doGetSelect [⟨lit "host.com"⟩, ⟨lit "host.com/org"⟩] (lit "host.com/org/repo")
        = some ⟨lit "host.com/org"⟩)
    ∧ (∀ (subs : List Subsection) (target : Str) (s : Subsection),
        doGetSelect subs target = some s →
        s ∈ subs ∧ hasPrefix target s.name = true
          ∧ ∀ ss ∈ subs, hasPrefix target ss.name = true →
              ss.name.length ≤ s.name.length)
    ∧ (∀ (subs : List Subsection) (target : Str)
        (respond : Subsection → Except GoError Str),
        (∀ ss ∈ subs, hasPrefix target ss.name = false) →
        doGetEmit subs target respond = .ok []) := by
  refine ⟨by decide, ?_, ?_⟩
  · intro subs target s h
    obtain ⟨h1, h2, h3, _⟩ :=
      select_fold_spec target subs none s (by intro a ha; cases ha) h
    refine ⟨?_, h1, h3⟩
    rcases h2 with h2 | h2
    · exact h2
    · cases h2
  · intro subs target respond h
    unfold doGetEmit
    rw [doGetSelect_none subs target h]

/-- Witness for C8 at concrete inputs. -/
theorem c8_doGet_longest_prefix_witness :
    doGetEmit [⟨lit "a.com"⟩] (lit "b.com") (fun _ => .error (lit "boom")) = .ok [] :=
  c8_doGet_longest_prefix.2.2 [⟨lit "a.com"⟩] (lit "b.com") (fun _ => .error (lit "boom"))
    (by decide)

example : isSSHURL (lit "git@github.com:org/repo") = true := by decide
example : isSSHURL (lit "https://github.com/org1/repo1") = false := by decide
example : normalizeSSHURL (lit "git@github.com:org/repo")
    = lit "ssh://git@github.com/org/repo" := by decide

example : isSSHURL (lit "git@example.com:1234/org1/repo1") = true := by decide
example : isSSHURL (lit "GIT@example.com:org1/repo1") = true := by decide
example : isSSHURL (lit "ssh://gerrithost:29418/RecipeBook.git") = true := by decide
example : isSSHURL (lit "org1/repo1") = false := by decide
example : normalizeSSHURL (lit "git@bitbucket.org:org1/repo1.git")
    = lit "ssh://git@bitbucket.org/org1/repo1.git" := by decide
example : normalizeSSHURL (lit "ssh://example.com/org1/repo1.git")
    = lit "ssh://example.com/org1/repo1.git" := by decide
example : normalizeSSHURL (lit "https://github.com/org1/repo1.git")
    = lit "https://github.com/org1/repo1.git" := by decide

/-! ### Soundness of the matchers: every run consumes a prefix drawn from the
pattern's character classes -/

theorem mChar_mem {p : Char → Bool} {s t : Str} (h : t ∈ mChar p s) :
    ∃ c, s = c :: t ∧ p c = true := by
  cases s with
  | nil => simp [mChar] at h
  | cons c s' =>
    simp only [mChar] at h
    by_cases hpc : p c = true
    · rw [if_pos hpc] at h
      simp at h
      exact ⟨c, by rw [h], hpc⟩
    · rw [if_neg hpc] at h
      simp at h

theorem mLit_mem {l s t : Str} (h : t ∈ mLit l s) : s = l ++ t := by
  unfold mLit at h
  by_cases hp : l.isPrefixOf s = true
  · rw [if_pos hp] at h
    simp at h
    subst h
    obtain ⟨u, rfl⟩ : l <+: s := by simpa using hp
    rw [List.drop_left]
  · rw [if_neg hp] at h
    simp at h

theorem mSeq_mem {a b : Matcher} {s t : Str} (h : t ∈ mSeq a b s) :
    ∃ t1, t1 ∈ a s ∧ t ∈ b t1 := by
  unfold mSeq at h
  simpa [List.mem_flatMap] using h

theorem mOpt_mem {a : Matcher} {s t : Str} (h : t ∈ mOpt a s) : t = s ∨ t ∈ a s := by
  unfold mOpt at h
  simpa using h

theorem MConsumes.char {p : Char → Bool} {P : Char → Prop}
    (hp : ∀ c, p c = true → P c) : MConsumes P (mChar p) := by
  intro s t h
  obtain ⟨c, rfl, hc⟩ := mChar_mem h
  exact ⟨[c], rfl, by simpa using hp c hc⟩

theorem MConsumes.lit {l : Str} {P : Char → Prop} (hl : ∀ c ∈ l, P c) :
    MConsumes P (mLit l) := by
  intro s t h
  exact ⟨l, mLit_mem h, hl⟩

theorem MConsumes.seq {a b : Matcher} {P : Char → Prop}
    (ha : MConsumes P a) (hb : MConsumes P b) : MConsumes P (mSeq a b) := by
  intro s t h
  obtain ⟨t1, h1, h2⟩ := mSeq_mem h
  obtain ⟨u1, rfl, hu1⟩ := ha s t1 h1
  obtain ⟨u2, rfl, hu2⟩ := hb t1 t h2
  refine ⟨u1 ++ u2, by rw [List.append_assoc], ?_⟩
  intro c hc
  rcases List.mem_append.mp hc with hc | hc
  · exact hu1 c hc
  · exact hu2 c hc

theorem MConsumes.opt {a : Matcher} {P : Char → Prop} (ha : MConsumes P a) :
    MConsumes P (mOpt a) := by
  intro s t h
  rcases mOpt_mem h with rfl | h
  · exact ⟨[], rfl, by simp⟩
  · exact ha s t h

theorem MConsumes.starFuel {a : Matcher} {P : Char → Prop} (ha : MConsumes P a) :
    ∀ n, MConsumes P (mStarFuel a n) := by
  intro n
  induction n with
  | zero =>
    intro s t h
    unfold mStarFuel at h
    simp at h
    exact ⟨[], by simp [h], by simp⟩
  | succ n ih =>
    intro s t h
    unfold mStarFuel at h
    rcases List.mem_cons.mp h with rfl | h
    · exact ⟨[], rfl, by simp⟩
    · rw [List.mem_flatMap] at h
      obtain ⟨t1, h1, h2⟩ := h
      obtain ⟨u1, rfl, hu1⟩ := ha s t1 h1
      obtain ⟨u2, rfl, hu2⟩ := ih t1 t h2
      refine ⟨u1 ++ u2, by rw [List.append_assoc], ?_⟩
      intro c hc
      rcases List.mem_append.mp hc with hc | hc
      · exact hu1 c hc
      · exact hu2 c hc

theorem MConsumes.star {a : Matcher} {P : Char → Prop} (ha : MConsumes P a) :
    MConsumes P (mStar a) := by
  intro s t h
  exact MConsumes.starFuel ha s.length s t h

theorem MConsumes.plus {a : Matcher} {P : Char → Prop} (ha : MConsumes P a) :
    MConsumes P (mPlus a) :=
  MConsumes.seq ha (MConsumes.star ha)

/-! ### Colon-freedom of the sub-patterns -/

theorem mUser_consumes : MConsumes (fun c => c ≠ ':') mUser := by
  refine MConsumes.opt (MConsumes.seq (MConsumes.char ?_)
    (MConsumes.seq (MConsumes.star (MConsumes.char ?_)) (MConsumes.char ?_)))
  · intro c h hc
    rw [hc] at h
    exact absurd h (by decide)
  · intro c h hc
    rw [hc] at h
    exact absurd h (by decide)
  · intro c h hc
    rw [hc] at h
    exact absurd h (by decide)

theorem mHostTail_consumes : MConsumes (fun c => c ≠ ':') (mStar (mChar isHostCont)) := by
  refine MConsumes.star (MConsumes.char ?_)
  intro c h hc
  rw [hc] at h
  exact absurd h (by decide)

theorem mPathSeg_consumes : MConsumes (fun c => c ≠ ':') mPathSeg := by
  refine MConsumes.seq (MConsumes.opt (MConsumes.char ?_))
    (MConsumes.plus (MConsumes.char ?_))
  · intro c h hc
    rw [hc] at h
    exact absurd h (by decide)
  · intro c h hc
    rw [hc] at h
    exact absurd h (by decide)

/-- A run of `userAndHostRegex` consumes a non-empty, colon-free prefix. -/
theorem mUserAndHost_mem {s t : Str} (h : t ∈ mUserAndHost s) :
    ∃ u, s = u ++ t ∧ u ≠ [] ∧ ∀ c ∈ u, c ≠ ':' := by
  obtain ⟨t1, h1, h2⟩ := mSeq_mem h
  obtain ⟨u1, rfl, hu1⟩ := mUser_consumes s t1 h1
  obtain ⟨t2, h3, h4⟩ := mSeq_mem h2
  obtain ⟨c, rfl, hc⟩ := mChar_mem h3
  obtain ⟨u2, rfl, hu2⟩ := mHostTail_consumes t2 t h4
  refine ⟨u1 ++ c :: u2, by simp, by simp, ?_⟩
  intro x hx
  rcases List.mem_append.mp hx with hx | hx
  · exact hu1 x hx
  · rcases List.mem_cons.mp hx with rfl | hx
    · intro hcontra
      rw [hcontra] at hc
      exact absurd hc (by decide)
    · exact hu2 x hx

/-! ### Locating the last colon -/

theorem findIdx?_first {p : Char → Bool} :
    ∀ (l1 : Str) (c : Char) (l2 : Str) (i : Nat),
      (∀ x ∈ l1, p x = false) → p c = true →
      (l1 ++ c :: l2).findIdx? p i = some (i + l1.length) := by
  intro l1
  induction l1 with
  | nil =>
    intro c l2 i h hp
    simp [List.findIdx?_cons, hp]
  | cons a t ih =>
    intro c l2 i h hp
    simp only [List.cons_append, List.findIdx?_cons]
    rw [if_neg (by simp [h a (List.mem_cons_self _ _)]),
      ih c l2 (i + 1) (fun x hx => h x (List.mem_cons_of_mem _ hx)) hp]
    congr 1
    simp
    omega

/-- `strings.LastIndex(s, ":")` on a string of the form `A ++ ':' :: B` with
no colon in `B` is the position right after `A`. -/
theorem lastIndexChar_eq (c : Char) (A B : Str) (h : c ∉ B) :
    lastIndexChar c (A ++ c :: B) = (A.length : Int) := by
  unfold lastIndexChar
  have hrev : (A ++ c :: B).reverse = B.reverse ++ c :: A.reverse := by
    simp
  rw [hrev, findIdx?_first B.reverse c A.reverse 0
    (by
      intro x hx
      simp only [List.mem_reverse] at hx
      simp only [decide_eq_false_iff_not]
      intro hxc
      rw [hxc] at hx
      exact h hx)
    (by simp)]
  simp
  omega

theorem anchoredMatch_mem {m : Matcher} {s : Str}
    (h : anchoredMatch m s = true) : [] ∈ m s := by
  unfold anchoredMatch at h
  rw [List.any_eq_true] at h
  obtain ⟨t, ht, he⟩ := h
  rw [List.isEmpty_iff] at he
  rw [← he]
  exact ht

theorem someMatch_mem {m : Matcher} {s : Str}
    (h : someMatch m s = true) : ∃ t, t ∈ m s := by
  unfold someMatch at h
  have hne : m s ≠ [] := by
    intro hnil
    rw [hnil] at h
    simp at h
  exact List.exists_mem_of_ne_nil _ hne

theorem count_colon_zero {u : Str} (h : ∀ c ∈ u, c ≠ ':') :
    List.count ':' u = 0 := by
  rw [List.count_eq_zero]
  intro hc
  exact h ':' hc rfl

/-! ### Inversion of the three URL regexes -/

theorem scheme_anchored {s : Str} (h : anchoredMatch sshURLRegexScheme s = true) :
    ∃ rest, s = sshPrefix ++ rest ∧ List.count ':' rest ≤ 1 := by
  obtain ⟨t1, h1, h2⟩ := mSeq_mem (anchoredMatch_mem h)
  have hs := mLit_mem h1
  obtain ⟨t2, h3, h4⟩ := mSeq_mem h2
  obtain ⟨u, ht1, hune, hu⟩ := mUserAndHost_mem h3
  obtain ⟨t3, h5, h6⟩ := mSeq_mem h4
  obtain ⟨d, ht2, hd⟩ := mChar_mem h5
  obtain ⟨w, ht3, hwP⟩ := (MConsumes.star mPathSeg_consumes) t3 [] h6
  rw [List.append_nil] at ht3
  refine ⟨u ++ d :: w, by rw [hs, ht1, ht2, ht3], ?_⟩
  rw [List.count_append]
  have hcu : List.count ':' u = 0 := count_colon_zero hu
  have hcw : List.count ':' w = 0 := count_colon_zero hwP
  have hcd : List.count ':' (d :: w) ≤ 1 := by
    rw [List.count_cons, hcw]
    split <;> omega
  omega

theorem scp_anchored {s : Str} (h : anchoredMatch sshURLRegexScp s = true) :
    List.count ':' s = 1 := by
  obtain ⟨t1, h1, h2⟩ := mSeq_mem (anchoredMatch_mem h)
  obtain ⟨u, hsu, hune, hu⟩ := mUserAndHost_mem h1
  obtain ⟨t2, h3, h4⟩ := mSeq_mem h2
  obtain ⟨d, ht1, hd⟩ := mChar_mem h3
  have hdc : d = ':' := by simpa using hd
  obtain ⟨w, ht2, hwP⟩ := (MConsumes.plus mPathSeg_consumes) t2 [] h4
  rw [List.append_nil] at ht2
  rw [hsu, ht1, ht2, hdc]
  rw [List.count_append, List.count_cons]
  rw [count_colon_zero hu, count_colon_zero hwP]
  simp

theorem withPort_some {s : Str} (h : someMatch sshURLRegexWithPort s = true) :
    ∃ u v, s = sshPrefix ++ (u ++ ':' :: v) ∧ u ≠ [] ∧ ∀ c ∈ u, c ≠ ':' := by
  obtain ⟨t, ht⟩ := someMatch_mem h
  obtain ⟨t1, h1, h2⟩ := mSeq_mem ht
  have hs := mLit_mem h1
  obtain ⟨t2, h3, h4⟩ := mSeq_mem h2
  obtain ⟨u, ht1, hune, hu⟩ := mUserAndHost_mem h3
  obtain ⟨t3, h5, h6⟩ := mSeq_mem h4
  obtain ⟨d, ht2, hd⟩ := mChar_mem h5
  have hdc : d = ':' := by simpa using hd
  exact ⟨u, t3, by rw [hs, ht1, ht2, hdc], hune, hu⟩

theorem hasPrefix_decomp {s p : Str} (h : hasPrefix s p = true) :
    s = p ++ s.drop p.length := by
  have hp : p <+: s := by simpa [hasPrefix] using h
  obtain ⟨u, rfl⟩ := hp
  rw [List.drop_left]

/-- After prefixing, an SSH URL is `ssh://` followed by a remainder with at
most one colon. -/
theorem prefixed_colon_structure {s : Str} (h : isSSHURL s = true) :
    ∃ rest, (if hasPrefix s sshPrefix then s else sshPrefix ++ s) = sshPrefix ++ rest
      ∧ List.count ':' rest ≤ 1 := by
  rw [isSSHURL, Bool.or_eq_true] at h
  by_cases hpre : hasPrefix s sshPrefix = true
  · rw [if_pos hpre]
    rcases h with h | h
    · exact scheme_anchored h
    · have hc := scp_anchored h
      have hs := hasPrefix_decomp hpre
      refine ⟨s.drop sshPrefix.length, hs, ?_⟩
      rw [hs, List.count_append] at hc
      have : List.count ':' sshPrefix = 1 := by decide
      omega
  · rw [if_neg hpre]
    rcases h with h | h
    · obtain ⟨rest, hrest, _⟩ := scheme_anchored h
      rw [hrest] at hpre
      exact absurd (hasPrefix_self_append sshPrefix rest) hpre
    · refine ⟨s, rfl, ?_⟩
      rw [scp_anchored h]

/-- A run of `trimLeftSlash` never adds colons. -/
theorem count_trimLeftSlash_le (v : Str) :
    List.count ':' (trimLeftSlash v) ≤ List.count ':' v :=
  (List.dropWhile_sublist _).count_le _

/-- The shape of a normalized SSH URL: it carries the `ssh://` prefix and no
longer matches the port-rewrite regex. -/
theorem normalizeSSHURL_shape {s : Str} (h : isSSHURL s = true) :
    ∃ rest, normalizeSSHURL s = sshPrefix ++ rest
      ∧ someMatch sshURLRegexWithPort (sshPrefix ++ rest) = false := by
  obtain ⟨rest, hs1, hcount⟩ := prefixed_colon_structure h
  unfold normalizeSSHURL
  rw [if_neg (by simp [h])]
  rw [hs1]
  by_cases hwp : someMatch sshURLRegexWithPort (sshPrefix ++ rest) = true
  · rw [if_pos hwp]
    obtain ⟨u, v, hs2, hune, hu⟩ := withPort_some hwp
    have hrest : rest = u ++ ':' :: v := List.append_cancel_left hs2
    have hcuv : List.count ':' u = 0 ∧ List.count ':' v = 0 := by
      rw [hrest, List.count_append, List.count_cons] at hcount
      simp at hcount
      omega
    have hvnot : ':' ∉ v := List.count_eq_zero.mp hcuv.2
    have hdecomp : sshPrefix ++ rest = (sshPrefix ++ u) ++ ':' :: v := by
      rw [hrest, List.append_assoc]
    have hlast : lastIndexChar ':' (sshPrefix ++ rest) = ((sshPrefix ++ u).length : Int) := by
      rw [hdecomp]
      exact lastIndexChar_eq ':' (sshPrefix ++ u) v hvnot
    rw [hlast, if_pos (by omega)]
    have htoNat : (((sshPrefix ++ u).length : Int)).toNat = (sshPrefix ++ u).length :=
      Int.toNat_natCast _
    rw [htoNat]
    have htake : (sshPrefix ++ rest).take (sshPrefix ++ u).length = sshPrefix ++ u := by
      rw [hdecomp]
      exact List.take_left _ _
    have hdrop : (sshPrefix ++ rest).drop ((sshPrefix ++ u).length + 1) = v := by
      rw [hdecomp, show (sshPrefix ++ u) ++ ':' :: v = ((sshPrefix ++ u) ++ [':']) ++ v by simp]
      refine List.drop_left' ?_
      simp
      omega
    rw [htake, hdrop]
    refine ⟨u ++ '/' :: trimLeftSlash v, by simp, ?_⟩
    by_cases hw2 : someMatch sshURLRegexWithPort (sshPrefix ++ (u ++ '/' :: trimLeftSlash v)) = true
    · obtain ⟨u2, v2, hs3, _, _⟩ := withPort_some hw2
      have hrest2 : u ++ '/' :: trimLeftSlash v = u2 ++ ':' :: v2 :=
        List.append_cancel_left hs3
      have hzero : List.count ':' (u ++ '/' :: trimLeftSlash v) = 0 := by
        rw [List.count_append, List.count_cons]
        have h1 := hcuv.1
        have h2 : List.count ':' (trimLeftSlash v) = 0 :=
          Nat.le_zero.mp (hcuv.2 ▸ count_trimLeftSlash_le v)
        simp [h1, h2]
      rw [hrest2, List.count_append, List.count_cons] at hzero
      simp at hzero
    · simpa using hw2
  · rw [if_neg hwp]
    exact ⟨rest, rfl, by simpa using hwp⟩

/-- **C9**: `normalizeSSHURL` rewrites the scp-like
`git@github.com:org/repo` to `ssh://git@github.com/org/repo`; it is
idempotent; and it returns any non-SSH URL verbatim. -/
theorem c9_normalizeSSHURL :
    normalizeSSHURL (lit "git@github.com:org/repo") = lit "ssh://git@github.com/org/repo"
    ∧ (∀ s : Str, normalizeSSHURL (normalizeSSHURL s) = normalizeSSHURL s)
    ∧ (∀ s : Str, isSSHURL s = false → normalizeSSHURL s = s) := by
  have hverbatim : ∀ s : Str, isSSHURL s = false → normalizeSSHURL s = s := by
    intro s hs
    unfold normalizeSSHURL
    rw [if_pos (by simp [hs])]
  refine ⟨by decide, ?_, hverbatim⟩
  intro s
  by_cases h : isSSHURL s = true
  · obtain ⟨rest, hr, hwp⟩ := normalizeSSHURL_shape h
    rw [hr]
    by_cases h2 : isSSHURL (sshPrefix ++ rest) = true
    · unfold normalizeSSHURL
      rw [if_neg (by simp [h2]), if_pos (hasPrefix_self_append sshPrefix rest),
        if_neg (by simp [hwp])]
    · exact hverbatim _ (by simpa using h2)
  · have hs := hverbatim s (by simpa using h)
    rw [hs, hs]

/-- Witness for C9 at a concrete non-SSH input. -/
theorem c9_normalizeSSHURL_witness :
    normalizeSSHURL (lit "https://github.com/org1/repo1")
      = lit "https://github.com/org1/repo1" :=
  c9_normalizeSSHURL.2.2 (lit "https://github.com/org1/repo1") (by decide)
